import Mathlib

/-!
Verification of the FLOWBIT learned-memory invoice pipeline.

The TypeScript services (confidence arithmetic, recall, apply, decide,
learn, purchase-order matching, orchestrator) are shallowly embedded
below.  JavaScript numbers are modelled as exact rationals (`ℚ`); every
arithmetic operation the code performs (`+`, `*`, `Math.min`, `Math.max`,
comparisons) is exact on the inputs involved, so the rational model
coincides with the idealised arithmetic the specification describes.
-/

namespace Flowbit

/-- JS `Math.min` on two numbers (no NaN in our models). -/
def jsMin (a b : ℚ) : ℚ := if a ≤ b then a else b

/-- JS `Math.max` on two numbers. -/
def jsMax (a b : ℚ) : ℚ := if a ≤ b then b else a

/-! ### CONFIDENCE_CONFIG (src/models/index.ts) -/

def initialHumanCorrectionConfidence : ℚ := 6/10
def autoApplyThreshold : ℚ := 85/100
def suggestionThreshold : ℚ := 70/100
def minimumThreshold : ℚ := 50/100
def maxConfidence : ℚ := 95/100
def reinforcementFactor : ℚ := 5/100
def rejectionPenaltyFactor : ℚ := 7/10
def maxConsecutiveRejectionsBeforeDeactivation : Nat := 3

/-! ### Confidence module (src/services/confidence.ts) -/

/-- `applyReinforcement(confidence)`:
`Math.min(confidence + reinforcementFactor * (1 - confidence), maxConfidence)`. -/
def applyReinforcement (confidence : ℚ) : ℚ :=
  jsMin (confidence + reinforcementFactor * (1 - confidence)) maxConfidence

/-- `applyPenalty(confidence)`:
`Math.max(confidence * rejectionPenaltyFactor, 0)`. -/
def applyPenalty (confidence : ℚ) : ℚ :=
  jsMax (confidence * rejectionPenaltyFactor) 0

/-- `applyDecay` is exp-based (real-valued); not needed by the claims. -/

inductive ThresholdAction where
  | auto_applied | suggested | flagged
deriving DecidableEq, Repr

/-- `mapConfidenceToAction(confidence)` from src/services/confidence.ts. -/
def mapConfidenceToAction (confidence : ℚ) : ThresholdAction :=
  if autoApplyThreshold ≤ confidence then .auto_applied
  else if suggestionThreshold ≤ confidence then .suggested
  else .flagged

/-- Iterated reinforcement (`applyReinforcement` applied `n` times). -/
def reinforceIter : Nat → ℚ → ℚ
  | 0, c => c
  | n + 1, c => reinforceIter n (applyReinforcement c)

/-- C1: with the default configuration, `applyReinforcement 0.6 = 0.62`
(exactly, hence within 1e-9) and `applyPenalty 0.6 = 0.42`; reinforcing a
0.6-confidence memory 20 times yields a confidence at least the 0.85
auto-apply threshold; and for any confidence `c` with `0.85 ≤ c ≤ 0.95`
(any value reachable by such reinforcement), two consecutive penalties
drop the confidence strictly below the 0.50 minimum-usable threshold. -/
theorem C1_confidence_arithmetic :
    applyReinforcement (6/10) = 62/100 ∧
    applyPenalty (6/10) = 42/100 ∧
    autoApplyThreshold ≤ reinforceIter 20 (6/10) ∧
    ∀ c : ℚ, autoApplyThreshold ≤ c → c ≤ maxConfidence →
      applyPenalty (applyPenalty c) < minimumThreshold := by
  refine ⟨by norm_num [applyReinforcement, jsMin, reinforcementFactor, maxConfidence],
          by norm_num [applyPenalty, jsMax, rejectionPenaltyFactor],
          by norm_num [reinforceIter, applyReinforcement, jsMin,
                       reinforcementFactor, maxConfidence, autoApplyThreshold],
          ?_⟩
  intro c hca hcb
  unfold autoApplyThreshold at hca
  unfold maxConfidence at hcb
  have h1 : applyPenalty c = c * (7/10) := by
    unfold applyPenalty jsMax rejectionPenaltyFactor
    rw [if_neg (not_le.mpr (by linarith))]
  have h2 : applyPenalty (c * (7/10)) = c * (7/10) * (7/10) := by
    unfold applyPenalty jsMax rejectionPenaltyFactor
    rw [if_neg (not_le.mpr (by linarith))]
  rw [h1, h2]
  unfold minimumThreshold
  linarith

/-- C1 witness: the hypothesis-bearing final conjunct instantiated at the
concrete confidence 0.9. -/
theorem C1_confidence_arithmetic_witness :
    applyPenalty (applyPenalty (9/10)) < minimumThreshold :=
  C1_confidence_arithmetic.2.2.2 (9/10) (by norm_num [autoApplyThreshold])
    (by norm_num [maxConfidence])

/-! ### String helpers

JS string operations are modelled over `String.data` (`List Char`);
`toLowerCase` is ASCII lowering, `\s` is `Char.isWhitespace`. -/

/-- JS `s.toLowerCase()` (ASCII). -/
def toLowerStr (s : String) : String := ⟨s.data.map Char.toLower⟩

/-- Whitespace-separated tokens of a character list (the accumulator holds
the current token reversed).  Used to model `trim` + `replace(/\s+/g,' ')`. -/
def wsTokens : List Char → List Char → List (List Char)
  | [], acc => if acc.isEmpty then [] else [acc.reverse]
  | c :: cs, acc =>
    if c.isWhitespace then
      if acc.isEmpty then wsTokens cs [] else acc.reverse :: wsTokens cs []
    else wsTokens cs (c :: acc)

/-- `normalizeVendorName(name)` from src/services/confidence.ts:
lower-case, trim, collapse internal whitespace runs to single spaces. -/
def normalizeVendorName (s : String) : String :=
  ⟨List.intercalate [' '] (wsTokens (s.data.map Char.toLower) [])⟩

/-- JS `s.includes(sub)` / regex literal-substring test. -/
def containsSub (s sub : String) : Bool := decide (sub.data <:+: s.data)

/-! ### Data model (src/models/index.ts)

`createdAt` / `lastUsedAt` timestamps are wall-clock display data, never
branched on by the services, and are not modelled.  Invoice dates are
epoch milliseconds (`Int`). -/

structure VendorMemory where
  id : String
  vendorId : String
  vendorName : String
  originalFieldName : String
  normalizedFieldName : String
  confidence : ℚ
  applicationCount : Nat
  consecutiveRejections : Nat
  isActive : Bool
deriving DecidableEq, Repr

structure CorrectionMemory where
  id : String
  vendorId : Option String
  fieldName : String
  originalValuePattern : String
  correctedValue : String
  confidence : ℚ
  applicationCount : Nat
  consecutiveRejections : Nat
  isActive : Bool
deriving DecidableEq, Repr

structure ResolutionMemory where
  id : String
  discrepancyType : String
  approvalCount : Nat
  rejectionCount : Nat
  isActive : Bool
deriving DecidableEq, Repr

/-- A line item of `fields['lineItems'].value`, as consumed by the
purchase-order matcher (`sku: string | null; qty: number`). -/
structure InvLineItem where
  sku : Option String
  qty : Int
deriving DecidableEq, Repr

/-- An entry of `invoice.fields`; `value` is `Option String` (JS `unknown`,
with `none` standing for `null`/`undefined`). -/
structure InvoiceField where
  name : String
  value : Option String
  extractionConfidence : ℚ
  originalLabel : Option String
deriving DecidableEq, Repr

structure Invoice where
  id : String
  vendorId : String
  vendorName : String
  invoiceNumber : String
  invoiceDateMs : Int
  fields : List InvoiceField
  rawText : Option String
  /-- The array value of `fields['lineItems']`, as cast by
  `POMatchingService.findMatchingPO`; `none` when absent. -/
  lineItemsVal : Option (List InvLineItem)
deriving DecidableEq, Repr

structure AuditEntry where
  step : String
  details : String
deriving DecidableEq, Repr

structure StoredAuditEntry where
  invoiceId : String
  step : String
  details : String
deriving DecidableEq, Repr

structure ProcessedInvoice where
  id : String
  vendorId : String
  invoiceNumber : String
  invoiceDateMs : Int
deriving DecidableEq, Repr

/-! ### Memory repository (src/repository/memory-repository.ts)

The SQLite tables are lists of rows in insertion order; SQL `WHERE`
is `List.filter`, `ORDER BY` is a stable sort, `UPDATE ... WHERE id` maps
a patch over the rows with that id. -/

structure RepoState where
  vendorTable : List VendorMemory
  correctionTable : List CorrectionMemory
  resolutionTable : List ResolutionMemory
  auditTable : List StoredAuditEntry
  processedInvoices : List ProcessedInvoice
deriving Repr

/-- Stable sort by descending confidence (SQL `ORDER BY confidence DESC`,
JS `sort((a, b) => b.confidence - a.confidence)`). -/
def sortByConfDesc {α : Type} (conf : α → ℚ) (l : List α) : List α :=
  List.insertionSort (fun a b => conf b ≤ conf a) l

theorem mem_sortByConfDesc {α : Type} (conf : α → ℚ) (l : List α) (x : α) :
    x ∈ sortByConfDesc conf l ↔ x ∈ l :=
  List.mem_insertionSort _

theorem sortByConfDesc_sorted {α : Type} (conf : α → ℚ) (l : List α) :
    (sortByConfDesc conf l).Sorted (fun a b => conf b ≤ conf a) := by
  letI : IsTotal α (fun a b => conf b ≤ conf a) := ⟨fun a b => le_total _ _⟩
  letI : IsTrans α (fun a b => conf b ≤ conf a) :=
    ⟨fun _ _ _ h1 h2 => le_trans h2 h1⟩
  exact List.sorted_insertionSort _ _

/-- `findVendorMemories`: active rows for the vendor key, confidence
descending. -/
def findVendorMemories (st : RepoState) (vendorId : String) : List VendorMemory :=
  sortByConfDesc (fun m => m.confidence)
    (st.vendorTable.filter (fun m => m.vendorId == vendorId && m.isActive))

def findVendorMemoryById (st : RepoState) (id : String) : Option VendorMemory :=
  st.vendorTable.find? (fun m => m.id == id)

/-- `findCorrectionMemories(vendorId, fieldName)`: for a concrete vendor the
SQL matches `vendor_id = ? OR vendor_id IS NULL`; for `null` only the
global rows. Active rows only, confidence descending. -/
def findCorrectionMemories (st : RepoState) (vendorId : Option String)
    (fieldName : String) : List CorrectionMemory :=
  match vendorId with
  | none => sortByConfDesc (fun m => m.confidence)
      (st.correctionTable.filter
        (fun m => m.vendorId == none && m.fieldName == fieldName && m.isActive))
  | some v => sortByConfDesc (fun m => m.confidence)
      (st.correctionTable.filter
        (fun m => (m.vendorId == some v || m.vendorId == none) &&
          m.fieldName == fieldName && m.isActive))

def findCorrectionMemoryById (st : RepoState) (id : String) : Option CorrectionMemory :=
  st.correctionTable.find? (fun m => m.id == id)

/-- `findResolutionMemories`: active rows of the discrepancy type, ordered
by total outcome count descending. -/
def findResolutionMemories (st : RepoState) (t : String) : List ResolutionMemory :=
  sortByConfDesc (fun m => ((m.approvalCount + m.rejectionCount : Nat) : ℚ))
    (st.resolutionTable.filter (fun m => m.discrepancyType == t && m.isActive))

def saveVendorMemory (st : RepoState) (m : VendorMemory) : RepoState :=
  { st with vendorTable := st.vendorTable ++ [m] }

def saveCorrectionMemory (st : RepoState) (m : CorrectionMemory) : RepoState :=
  { st with correctionTable := st.correctionTable ++ [m] }

/-- `UPDATE vendor_memories SET ... WHERE id = ?`; the patch `f` sets
exactly the columns the call supplies. -/
def updateVendorMemory (st : RepoState) (id : String)
    (f : VendorMemory → VendorMemory) : RepoState :=
  { st with vendorTable := st.vendorTable.map (fun m => if m.id == id then f m else m) }

def updateCorrectionMemory (st : RepoState) (id : String)
    (f : CorrectionMemory → CorrectionMemory) : RepoState :=
  { st with correctionTable := st.correctionTable.map (fun m => if m.id == id then f m else m) }

def saveAuditEntry (st : RepoState) (e : StoredAuditEntry) : RepoState :=
  { st with auditTable := st.auditTable ++ [e] }

/-- Day index of an epoch-millisecond instant (`date(...)` truncation in
the SQLite duplicate query; ISO dates compare chronologically). -/
def dayIndex (ms : Int) : Int := Int.fdiv ms 86400000

/-- `findPotentialDuplicates(vendorId, invoiceNumber, date)`: ids of
processed invoices with the same vendor key and invoice number whose date
(at day granularity) lies within ±7 days. -/
def findPotentialDuplicates (st : RepoState) (vendorId invoiceNumber : String)
    (dateMs : Int) : List String :=
  (st.processedInvoices.filter (fun r =>
      r.vendorId == vendorId && r.invoiceNumber == invoiceNumber &&
      decide (dayIndex dateMs - 7 ≤ dayIndex r.invoiceDateMs) &&
      decide (dayIndex r.invoiceDateMs ≤ dayIndex dateMs + 7))).map (fun r => r.id)

/-- `saveProcessedInvoice` (`INSERT OR REPLACE`). -/
def saveProcessedInvoice (st : RepoState) (id vendorId invoiceNumber : String)
    (dateMs : Int) : RepoState :=
  { st with processedInvoices :=
      st.processedInvoices.filter (fun r => r.id != id) ++
        [⟨id, vendorId, invoiceNumber, dateMs⟩] }

/-! ### Recall stage (src/services/recall.ts) -/

structure RecalledMemories where
  vendorMemories : List VendorMemory
  correctionMemories : List CorrectionMemory
  resolutionMemories : List ResolutionMemory
deriving Repr

/-- `filterByConfidence`: keep confidence ≥ minimum threshold, sort
descending. -/
def filterByConfidence {α : Type} (conf : α → ℚ) (l : List α) : List α :=
  sortByConfDesc conf (l.filter (fun m => decide (minimumThreshold ≤ conf m)))

/-- `recallCorrectionMemories`: per invoice field, vendor-scoped plus
global correction memories, de-duplicated by id, confidence-filtered. -/
def recallCorrectionMemories (st : RepoState) (vendorId : String)
    (fieldNames : List String) : List CorrectionMemory :=
  let all := fieldNames.foldl (fun acc field =>
    (findCorrectionMemories st (some vendorId) field ++
        findCorrectionMemories st none field).foldl
      (fun acc2 m => if acc2.any (fun x => x.id == m.id) then acc2 else acc2 ++ [m])
      acc) []
  filterByConfidence (fun m => m.confidence) all

def discrepancyKeyMap : List (String × String) :=
  [("quantity", "quantity_mismatch"), ("qty", "quantity_mismatch"),
   ("price", "price_mismatch"), ("amount", "price_mismatch"),
   ("total", "price_mismatch"), ("date", "date_mismatch"),
   ("tax", "tax_mismatch"), ("vat", "tax_mismatch"), ("mwst", "tax_mismatch"),
   ("currency", "currency_mismatch"), ("po", "po_mismatch"),
   ("purchase", "po_mismatch")]

def extractDiscrepancyTypes (invoice : Invoice) : List String :=
  invoice.fields.foldl (fun types f =>
    discrepancyKeyMap.foldl (fun ts kt =>
      if containsSub (toLowerStr f.name) kt.1 && !(ts.contains kt.2)
      then ts ++ [kt.2] else ts) types) []

/-- Approval rate of a resolution memory (denominator positive on every
row this is applied to). -/
def approvalRate (m : ResolutionMemory) : ℚ :=
  (m.approvalCount : ℚ) / ((m.approvalCount + m.rejectionCount : Nat) : ℚ)

/-- `recallResolutionMemories`: de-duplicated rows of the derived
discrepancy types with at least one outcome, sorted by approval rate
descending, ties by total outcome count descending. -/
def recallResolutionMemories (st : RepoState) (invoice : Invoice) :
    List ResolutionMemory :=
  let types := extractDiscrepancyTypes invoice
  let all := types.foldl (fun acc t =>
    (findResolutionMemories st t).foldl
      (fun acc2 m => if acc2.any (fun x => x.id == m.id) then acc2 else acc2 ++ [m])
      acc) []
  List.insertionSort
    (fun a b => approvalRate b < approvalRate a ∨
      (approvalRate b = approvalRate a ∧
        b.approvalCount + b.rejectionCount ≤ a.approvalCount + a.rejectionCount))
    (all.filter (fun m => decide (0 < m.approvalCount + m.rejectionCount)))

/-- Recall audit details (display string; numeric formatting elided). -/
def recallAuditDetails (memories : RecalledMemories) (invoice : Invoice) : String :=
  let total := memories.vendorMemories.length + memories.correctionMemories.length +
    memories.resolutionMemories.length
  if total == 0 then
    "Recalled 0 memories for invoice " ++ invoice.id ++ " from vendor " ++
      invoice.vendorName ++ ". No relevant memories found."
  else
    "Recalled " ++ toString total ++ " memories for invoice " ++ invoice.id ++
      " from vendor " ++ invoice.vendorName ++ ":" ++
      (if memories.vendorMemories.length != 0 then " vendor memories" else "") ++
      (if memories.correctionMemories.length != 0 then " correction memories" else "") ++
      (if memories.resolutionMemories.length != 0 then " resolution memories" else "")

/-- `RecallService.recallMemories`. -/
def recallMemories (st : RepoState) (invoice : Invoice) :
    RecalledMemories × AuditEntry :=
  let vendorId := normalizeVendorName invoice.vendorId
  let fieldNames := invoice.fields.map (fun f => f.name)
  let memories : RecalledMemories :=
    { vendorMemories := filterByConfidence (fun m => m.confidence)
        (findVendorMemories st vendorId)
      correctionMemories := recallCorrectionMemories st vendorId fieldNames
      resolutionMemories := recallResolutionMemories st invoice }
  (memories, ⟨"recall", recallAuditDetails memories invoice⟩)

/-- C5: the vendor-memory list recalled for an invoice contains exactly the
active stored vendor memories under the normalized vendor key with
confidence at least the 0.50 minimum threshold, sorted in descending order
of confidence; and every recalled correction memory also has confidence at
least the minimum threshold. -/
theorem C5_recall_vendor_memories (st : RepoState) (invoice : Invoice) :
    (∀ m, m ∈ (recallMemories st invoice).1.vendorMemories ↔
        m ∈ st.vendorTable ∧ m.isActive = true ∧
        m.vendorId = normalizeVendorName invoice.vendorId ∧
        minimumThreshold ≤ m.confidence) ∧
    (recallMemories st invoice).1.vendorMemories.Sorted
      (fun a b => b.confidence ≤ a.confidence) ∧
    (∀ m ∈ (recallMemories st invoice).1.correctionMemories,
        minimumThreshold ≤ m.confidence) := by
  refine ⟨fun m => ?_, ?_, fun m hm => ?_⟩
  · simp only [recallMemories, filterByConfidence, findVendorMemories,
      mem_sortByConfDesc, List.mem_filter, Bool.and_eq_true, beq_iff_eq,
      decide_eq_true_eq]
    tauto
  · exact sortByConfDesc_sorted _ _
  · simp only [recallMemories, recallCorrectionMemories, filterByConfidence,
      mem_sortByConfDesc, List.mem_filter, decide_eq_true_eq] at hm
    exact hm.2

/-- C5 witness: a concrete active 0.8-confidence memory stored under the
normalized key of vendor "Acme  Corp" is recalled. -/
theorem C5_recall_vendor_memories_witness :
    let m : VendorMemory :=
      ⟨"vm1", "acme corp", "Acme Corp", "Leistungsdatum", "serviceDate",
        8/10, 0, 0, true⟩
    let st : RepoState := ⟨[m], [], [], [], []⟩
    let invoice : Invoice :=
      ⟨"INV-1", "Acme  Corp", "Acme Corp", "R-1", 0, [], none, none⟩
    m ∈ (recallMemories st invoice).1.vendorMemories := by
  intro m st invoice
  exact ((C5_recall_vendor_memories st invoice).1 m).mpr
    ⟨List.mem_cons_self _ _, rfl, by decide, by norm_num [minimumThreshold]⟩

/-! ### Learn stage (src/services/learn.ts)

Fresh ids (`uuidv4()`) are modelled by a deterministic counter carried in
`LearnState.nextId`; result-list entries are recorded by memory id (the
source stores formatted description strings built from the same ids). -/

inductive MemoryType where
  | vendor | correction
deriving DecidableEq, Repr

structure ContributingMemory where
  memoryId : String
  memoryType : MemoryType
  fieldName : String
  extractedValue : Option String
deriving DecidableEq, Repr

structure FieldCorrection where
  fieldName : String
  originalValue : Option String
  correctedValue : String
deriving DecidableEq, Repr

inductive FeedbackAction where
  | approve | reject | correct
deriving DecidableEq, Repr

structure HumanFeedback where
  invoiceId : String
  action : FeedbackAction
  corrections : Option (List FieldCorrection)
deriving DecidableEq, Repr

structure LearningResult where
  createdMemories : List String
  updatedMemories : List String
  deactivatedMemories : List String
deriving DecidableEq, Repr

structure LearnState where
  repo : RepoState
  contributingMemories : String → Option (List ContributingMemory)
  nextId : Nat

def registerContributingMemories (ls : LearnState) (invoiceId : String)
    (memories : List ContributingMemory) : LearnState :=
  { ls with contributingMemories :=
      fun k => if k == invoiceId then some memories else ls.contributingMemories k }

inductive LearnAction where
  | reinforce | penalize | contradict
deriving DecidableEq, Repr

/-- The confidence / consecutive-rejections / active-flag transition of
`LearnService.updateMemory` (the contradiction penalty is the flat ×0.5 of
the source). -/
def learnStep (conf : ℚ) (rejections : Nat) (active : Bool) :
    LearnAction → ℚ × Nat × Bool
  | .reinforce => (applyReinforcement conf, 0, active)
  | .penalize =>
      (applyPenalty conf, rejections + 1,
        if maxConsecutiveRejectionsBeforeDeactivation ≤ rejections + 1 then false
        else active)
  | .contradict => (conf * (1/2), rejections, active)

/-- `LearnService.updateMemory`: look the contributing memory up in its
table, apply `learnStep`, bump the application count on reinforcement,
write the row back, and report the id as updated (still active) or
deactivated. -/
def updateMemory (st : RepoState) (res : LearningResult)
    (mem : ContributingMemory) (action : LearnAction) :
    RepoState × LearningResult :=
  match mem.memoryType with
  | .vendor =>
    match findVendorMemoryById st mem.memoryId with
    | none => (st, res)
    | some existing =>
      let s := learnStep existing.confidence existing.consecutiveRejections
        existing.isActive action
      let newApp := if action = .reinforce then existing.applicationCount + 1
        else existing.applicationCount
      let st' := updateVendorMemory st mem.memoryId (fun m =>
        { m with confidence := s.1, consecutiveRejections := s.2.1,
                 isActive := s.2.2, applicationCount := newApp })
      if s.2.2 then
        (st', { res with updatedMemories := res.updatedMemories ++ [mem.memoryId] })
      else
        (st', { res with deactivatedMemories := res.deactivatedMemories ++ [mem.memoryId] })
  | .correction =>
    match findCorrectionMemoryById st mem.memoryId with
    | none => (st, res)
    | some existing =>
      let s := learnStep existing.confidence existing.consecutiveRejections
        existing.isActive action
      let newApp := if action = .reinforce then existing.applicationCount + 1
        else existing.applicationCount
      let st' := updateCorrectionMemory st mem.memoryId (fun m =>
        { m with confidence := s.1, consecutiveRejections := s.2.1,
                 isActive := s.2.2, applicationCount := newApp })
      if s.2.2 then
        (st', { res with updatedMemories := res.updatedMemories ++ [mem.memoryId] })
      else
        (st', { res with deactivatedMemories := res.deactivatedMemories ++ [mem.memoryId] })

/-- `contributing.forEach(m => this.updateMemory(m, action, result))`. -/
def updateAll (action : LearnAction) (p : RepoState × LearningResult)
    (l : List ContributingMemory) : RepoState × LearningResult :=
  l.foldl (fun p m => updateMemory p.1 p.2 m action) p

/-- `LearnService.getMemorySuggestedValue`. -/
def getMemorySuggestedValue (st : RepoState) (mem : ContributingMemory) :
    Option String :=
  match mem.extractedValue with
  | some v => some v
  | none =>
    match mem.memoryType with
    | .correction => (findCorrectionMemoryById st mem.memoryId).map
        (fun c => c.correctedValue)
    | .vendor => none

def freshId (n : Nat) : String := "mem-" ++ toString n

/-- `LearnService.createMemory`: a distinct truthy original label makes
this a field-mapping discovery (reinforce the existing vendor memory with
that exact mapping, or create a new one at the initial confidence);
otherwise a new correction memory is created at the initial confidence. -/
def createMemory (corr : FieldCorrection) (invoice : Invoice) (vendorId : String)
    (st : RepoState) (nextId : Nat) (res : LearningResult) :
    RepoState × Nat × LearningResult :=
  let field := invoice.fields.find? (fun f => f.name == corr.fieldName)
  match field.bind (fun f => f.originalLabel) with
  | some lbl =>
    if lbl != "" && lbl != corr.fieldName then
      match (findVendorMemories st vendorId).find? (fun m =>
          m.originalFieldName == lbl && m.normalizedFieldName == corr.fieldName) with
      | some ex =>
        let st' := updateVendorMemory st ex.id (fun m =>
          { m with confidence := applyReinforcement ex.confidence,
                   applicationCount := ex.applicationCount + 1,
                   consecutiveRejections := 0 })
        (st', nextId, { res with updatedMemories := res.updatedMemories ++ [ex.id] })
      | none =>
        let vm : VendorMemory := ⟨freshId nextId, vendorId, invoice.vendorName,
          lbl, corr.fieldName, initialHumanCorrectionConfidence, 0, 0, true⟩
        (saveVendorMemory st vm, nextId + 1,
          { res with createdMemories := res.createdMemories ++ [vm.id] })
    else
      let cm : CorrectionMemory := ⟨freshId nextId, some vendorId, corr.fieldName,
        (match corr.originalValue with | some v => v | none => "*"),
        corr.correctedValue, initialHumanCorrectionConfidence, 0, 0, true⟩
      (saveCorrectionMemory st cm, nextId + 1,
        { res with createdMemories := res.createdMemories ++ [cm.id] })
  | none =>
    let cm : CorrectionMemory := ⟨freshId nextId, some vendorId, corr.fieldName,
      (match corr.originalValue with | some v => v | none => "*"),
      corr.correctedValue, initialHumanCorrectionConfidence, 0, 0, true⟩
    (saveCorrectionMemory st cm, nextId + 1,
      { res with createdMemories := res.createdMemories ++ [cm.id] })

/-- The body of the `for (const corr of feedback.corrections)` loop of
`learnFromFeedback` for `correct` feedback. -/
def processCorrection (contributing : List ContributingMemory) (invoice : Invoice)
    (vendorId : String) (acc : RepoState × Nat × LearningResult)
    (corr : FieldCorrection) : RepoState × Nat × LearningResult :=
  match contributing.find? (fun m => m.fieldName == corr.fieldName) with
  | some cm =>
    match getMemorySuggestedValue acc.1 cm with
    | some v =>
      if v == corr.correctedValue then
        let q := updateMemory acc.1 acc.2.2 cm .reinforce
        (q.1, acc.2.1, q.2)
      else
        let q := updateMemory acc.1 acc.2.2 cm .contradict
        createMemory corr invoice vendorId q.1 acc.2.1 q.2
    | none =>
      let q := updateMemory acc.1 acc.2.2 cm .contradict
      createMemory corr invoice vendorId q.1 acc.2.1 q.2
  | none => createMemory corr invoice vendorId acc.1 acc.2.1 acc.2.2

def feedbackActionStr : FeedbackAction → String
  | .approve => "approve"
  | .reject => "reject"
  | .correct => "correct"

/-- `LearnService.learnFromFeedback`. -/
def learnFromFeedback (ls : LearnState) (feedback : HumanFeedback)
    (invoice : Invoice) : LearnState × LearningResult :=
  let contributing := (ls.contributingMemories invoice.id).getD []
  let res0 : LearningResult := ⟨[], [], []⟩
  let out : RepoState × Nat × LearningResult :=
    match feedback.action, feedback.corrections with
    | .approve, _ =>
      let p := updateAll .reinforce (ls.repo, res0) contributing
      (p.1, ls.nextId, p.2)
    | .reject, _ =>
      let p := updateAll .penalize (ls.repo, res0) contributing
      (p.1, ls.nextId, p.2)
    | .correct, some corrections =>
      corrections.foldl
        (processCorrection contributing invoice (normalizeVendorName invoice.vendorId))
        (ls.repo, ls.nextId, res0)
    | .correct, none => (ls.repo, ls.nextId, res0)
  let res := out.2.2
  let auditEntry : StoredAuditEntry := ⟨invoice.id, "learn",
    feedbackActionStr feedback.action ++ " on " ++ invoice.id ++
      ": +" ++ toString res.createdMemories.length ++
      " ~" ++ toString res.updatedMemories.length ++
      " -" ++ toString res.deactivatedMemories.length⟩
  ({ repo := saveAuditEntry out.1 auditEntry,
     contributingMemories :=
       fun k => if k == invoice.id then none else ls.contributingMemories k,
     nextId := out.2.1 }, res)

/-! ### Lemmas about id-keyed table updates -/

theorem find?_map_patch {α : Type} (idOf : α → String) (mid tid : String)
    (f : α → α) (hf : ∀ m, idOf (f m) = idOf m) (hne : tid ≠ mid) :
    ∀ l : List α,
      (l.map (fun m => if idOf m == mid then f m else m)).find?
          (fun m => idOf m == tid) =
        l.find? (fun m => idOf m == tid)
  | [] => rfl
  | a :: t => by
    by_cases ha : idOf a = mid
    · have hmap : (if idOf a == mid then f a else a) = f a := by
        simp [beq_iff_eq.mpr ha]
      have hfa : (idOf (f a) == tid) = false := by
        rw [hf a, ha]
        exact beq_eq_false_iff_ne.mpr (fun h => hne h.symm)
      have hat : (idOf a == tid) = false := by
        rw [ha]
        exact beq_eq_false_iff_ne.mpr (fun h => hne h.symm)
      simp only [List.map_cons, hmap, List.find?_cons, hfa, hat]
      exact find?_map_patch idOf mid tid f hf hne t
    · have hmap : (if idOf a == mid then f a else a) = a := by
        simp [beq_iff_eq, ha]
      by_cases h2 : idOf a = tid
      · have hat : (idOf a == tid) = true := beq_iff_eq.mpr h2
        simp only [List.map_cons, hmap, List.find?_cons, hat]
      · have hat : (idOf a == tid) = false := beq_eq_false_iff_ne.mpr h2
        simp only [List.map_cons, hmap, List.find?_cons, hat]
        exact find?_map_patch idOf mid tid f hf hne t

theorem find?_map_patch_eq {α : Type} (idOf : α → String) (mid : String)
    (f : α → α) (hf : ∀ m, idOf (f m) = idOf m) :
    ∀ (l : List α) (m : α), l.find? (fun x => idOf x == mid) = some m →
      (l.map (fun x => if idOf x == mid then f x else x)).find?
          (fun x => idOf x == mid) = some (f m)
  | [], m => by intro h; simp at h
  | a :: t, m => by
    intro h
    by_cases ha : idOf a = mid
    · have haa : (idOf a == mid) = true := beq_iff_eq.mpr ha
      have hmap : (if idOf a == mid then f a else a) = f a := by simp [haa]
      have hfa : (idOf (f a) == mid) = true := by rw [hf a]; exact haa
      simp only [List.find?_cons, haa] at h
      cases h
      simp only [List.map_cons, hmap, List.find?_cons, hfa]
    · have haa : (idOf a == mid) = false := beq_eq_false_iff_ne.mpr ha
      have hmap : (if idOf a == mid then f a else a) = a := by simp [haa]
      simp only [List.find?_cons, haa] at h
      simp only [List.map_cons, hmap]
      simp only [List.find?_cons, haa]
      exact find?_map_patch_eq idOf mid f hf t m h

/-- `UPDATE ... WHERE id = mid` does not change what is found under
another id. -/
theorem findVendorMemoryById_update_ne (st : RepoState) (mid tid : String)
    (f : VendorMemory → VendorMemory) (hf : ∀ m, (f m).id = m.id)
    (hne : tid ≠ mid) :
    findVendorMemoryById (updateVendorMemory st mid f) tid =
      findVendorMemoryById st tid := by
  unfold findVendorMemoryById updateVendorMemory
  exact find?_map_patch (fun m => m.id) mid tid f hf hne st.vendorTable

theorem findCorrectionMemoryById_update_ne (st : RepoState) (mid tid : String)
    (f : CorrectionMemory → CorrectionMemory) (hf : ∀ m, (f m).id = m.id)
    (hne : tid ≠ mid) :
    findCorrectionMemoryById (updateCorrectionMemory st mid f) tid =
      findCorrectionMemoryById st tid := by
  unfold findCorrectionMemoryById updateCorrectionMemory
  exact find?_map_patch (fun m => m.id) mid tid f hf hne st.correctionTable

/-- `UPDATE ... WHERE id = mid` rewrites the row found under `mid` with the
patch. -/
theorem findVendorMemoryById_update_eq (st : RepoState) (mid : String)
    (f : VendorMemory → VendorMemory) (hf : ∀ m, (f m).id = m.id)
    (m : VendorMemory) (h : findVendorMemoryById st mid = some m) :
    findVendorMemoryById (updateVendorMemory st mid f) mid = some (f m) := by
  unfold findVendorMemoryById at h
  unfold findVendorMemoryById updateVendorMemory
  exact find?_map_patch_eq (fun m => m.id) mid f hf st.vendorTable m h

theorem findCorrectionMemoryById_update_eq (st : RepoState) (mid : String)
    (f : CorrectionMemory → CorrectionMemory) (hf : ∀ m, (f m).id = m.id)
    (m : CorrectionMemory) (h : findCorrectionMemoryById st mid = some m) :
    findCorrectionMemoryById (updateCorrectionMemory st mid f) mid = some (f m) := by
  unfold findCorrectionMemoryById at h
  unfold findCorrectionMemoryById updateCorrectionMemory
  exact find?_map_patch_eq (fun m => m.id) mid f hf st.correctionTable m h

theorem findVendorMemoryById_saveAudit (st : RepoState) (e : StoredAuditEntry)
    (id : String) :
    findVendorMemoryById (saveAuditEntry st e) id = findVendorMemoryById st id := rfl

theorem findCorrectionMemoryById_saveAudit (st : RepoState) (e : StoredAuditEntry)
    (id : String) :
    findCorrectionMemoryById (saveAuditEntry st e) id = findCorrectionMemoryById st id := rfl

/-! ### Lemmas about `updateMemory` and `updateAll` -/

theorem updateMemory_vendor_frame (st : RepoState) (res : LearningResult)
    (mem : ContributingMemory) (action : LearnAction) (tid : String)
    (hne : tid ≠ mem.memoryId) :
    findVendorMemoryById (updateMemory st res mem action).1 tid =
      findVendorMemoryById st tid := by
  unfold updateMemory
  cases mem.memoryType with
  | vendor =>
    cases hfind : findVendorMemoryById st mem.memoryId with
    | none => rfl
    | some existing =>
      simp only []
      split
      all_goals
        exact findVendorMemoryById_update_ne st mem.memoryId tid _
          (fun m => rfl) hne
  | correction =>
    cases hfind : findCorrectionMemoryById st mem.memoryId with
    | none => rfl
    | some existing =>
      simp only []
      split
      all_goals rfl

theorem updateMemory_correction_frame (st : RepoState) (res : LearningResult)
    (mem : ContributingMemory) (action : LearnAction) (tid : String)
    (hne : tid ≠ mem.memoryId) :
    findCorrectionMemoryById (updateMemory st res mem action).1 tid =
      findCorrectionMemoryById st tid := by
  unfold updateMemory
  cases mem.memoryType with
  | vendor =>
    cases hfind : findVendorMemoryById st mem.memoryId with
    | none => rfl
    | some existing =>
      simp only []
      split
      all_goals rfl
  | correction =>
    cases hfind : findCorrectionMemoryById st mem.memoryId with
    | none => rfl
    | some existing =>
      simp only []
      split
      all_goals
        exact findCorrectionMemoryById_update_ne st mem.memoryId tid _
          (fun m => rfl) hne

theorem updateMemory_res_spec (st : RepoState) (res : LearningResult)
    (mem : ContributingMemory) (action : LearnAction) :
    ((updateMemory st res mem action).2.updatedMemories = res.updatedMemories ∨
      (updateMemory st res mem action).2.updatedMemories =
        res.updatedMemories ++ [mem.memoryId]) ∧
    ((updateMemory st res mem action).2.deactivatedMemories = res.deactivatedMemories ∨
      (updateMemory st res mem action).2.deactivatedMemories =
        res.deactivatedMemories ++ [mem.memoryId]) := by
  unfold updateMemory
  cases mem.memoryType with
  | vendor =>
    cases findVendorMemoryById st mem.memoryId with
    | none => exact ⟨Or.inl rfl, Or.inl rfl⟩
    | some existing =>
      simp only []
      split
      · exact ⟨Or.inr rfl, Or.inl rfl⟩
      · exact ⟨Or.inl rfl, Or.inr rfl⟩
  | correction =>
    cases findCorrectionMemoryById st mem.memoryId with
    | none => exact ⟨Or.inl rfl, Or.inl rfl⟩
    | some existing =>
      simp only []
      split
      · exact ⟨Or.inr rfl, Or.inl rfl⟩
      · exact ⟨Or.inl rfl, Or.inr rfl⟩

theorem updateAll_vendor_frame (action : LearnAction) :
    ∀ (l : List ContributingMemory) (p : RepoState × LearningResult) (tid : String),
      (∀ m ∈ l, tid ≠ m.memoryId) →
      findVendorMemoryById (updateAll action p l).1 tid =
        findVendorMemoryById p.1 tid
  | [], p, tid, _ => rfl
  | c :: t, p, tid, h => by
    have h1 := updateMemory_vendor_frame p.1 p.2 c action tid
      (h c (List.mem_cons_self c t))
    have h2 := updateAll_vendor_frame action t (updateMemory p.1 p.2 c action) tid
      (fun m hm => h m (List.mem_cons_of_mem c hm))
    simp only [updateAll, List.foldl_cons] at h2 ⊢
    exact h2.trans h1

theorem updateAll_correction_frame (action : LearnAction) :
    ∀ (l : List ContributingMemory) (p : RepoState × LearningResult) (tid : String),
      (∀ m ∈ l, tid ≠ m.memoryId) →
      findCorrectionMemoryById (updateAll action p l).1 tid =
        findCorrectionMemoryById p.1 tid
  | [], p, tid, _ => rfl
  | c :: t, p, tid, h => by
    have h1 := updateMemory_correction_frame p.1 p.2 c action tid
      (h c (List.mem_cons_self c t))
    have h2 := updateAll_correction_frame action t (updateMemory p.1 p.2 c action) tid
      (fun m hm => h m (List.mem_cons_of_mem c hm))
    simp only [updateAll, List.foldl_cons] at h2 ⊢
    exact h2.trans h1

theorem updateAll_updated_mono (action : LearnAction) :
    ∀ (l : List ContributingMemory) (p : RepoState × LearningResult) (x : String),
      x ∈ p.2.updatedMemories → x ∈ (updateAll action p l).2.updatedMemories
  | [], p, x, h => h
  | c :: t, p, x, h => by
    have hs := (updateMemory_res_spec p.1 p.2 c action).1
    simp only [updateAll, List.foldl_cons]
    apply updateAll_updated_mono action t _ x
    rcases hs with h1 | h1 <;> rw [h1]
    · exact h
    · exact List.mem_append_left _ h

theorem updateAll_deact_mono (action : LearnAction) :
    ∀ (l : List ContributingMemory) (p : RepoState × LearningResult) (x : String),
      x ∈ p.2.deactivatedMemories → x ∈ (updateAll action p l).2.deactivatedMemories
  | [], p, x, h => h
  | c :: t, p, x, h => by
    have hs := (updateMemory_res_spec p.1 p.2 c action).2
    simp only [updateAll, List.foldl_cons]
    apply updateAll_deact_mono action t _ x
    rcases hs with h1 | h1 <;> rw [h1]
    · exact h
    · exact List.mem_append_left _ h

theorem updateAll_updated_prov (action : LearnAction) :
    ∀ (l : List ContributingMemory) (p : RepoState × LearningResult) (x : String),
      x ∈ (updateAll action p l).2.updatedMemories →
      x ∈ p.2.updatedMemories ∨ x ∈ l.map (fun c => c.memoryId)
  | [], p, x, h => Or.inl h
  | c :: t, p, x, h => by
    simp only [updateAll, List.foldl_cons] at h
    rcases updateAll_updated_prov action t _ x h with h1 | h1
    · rcases (updateMemory_res_spec p.1 p.2 c action).1 with h2 | h2
      · exact Or.inl (h2 ▸ h1)
      · rw [h2] at h1
        rcases List.mem_append.mp h1 with h3 | h3
        · exact Or.inl h3
        · right
          simp only [List.mem_singleton] at h3
          simp [h3]
    · right
      simp only [List.map_cons, List.mem_cons]
      exact Or.inr h1

theorem updateAll_deact_prov (action : LearnAction) :
    ∀ (l : List ContributingMemory) (p : RepoState × LearningResult) (x : String),
      x ∈ (updateAll action p l).2.deactivatedMemories →
      x ∈ p.2.deactivatedMemories ∨ x ∈ l.map (fun c => c.memoryId)
  | [], p, x, h => Or.inl h
  | c :: t, p, x, h => by
    simp only [updateAll, List.foldl_cons] at h
    rcases updateAll_deact_prov action t _ x h with h1 | h1
    · rcases (updateMemory_res_spec p.1 p.2 c action).2 with h2 | h2
      · exact Or.inl (h2 ▸ h1)
      · rw [h2] at h1
        rcases List.mem_append.mp h1 with h3 | h3
        · exact Or.inl h3
        · right
          simp only [List.mem_singleton] at h3
          simp [h3]
    · right
      simp only [List.map_cons, List.mem_cons]
      exact Or.inr h1

/-- The active flag after one penalty (`reject`) step. -/
def penalizedActive (rejections : Nat) (active : Bool) : Bool :=
  if maxConsecutiveRejectionsBeforeDeactivation ≤ rejections + 1 then false
  else active

theorem updateMemory_penalize_vendor_eq (st : RepoState) (res : LearningResult)
    (cm : ContributingMemory) (m : VendorMemory)
    (htype : cm.memoryType = .vendor)
    (hfind : findVendorMemoryById st cm.memoryId = some m) :
    updateMemory st res cm .penalize =
      (updateVendorMemory st cm.memoryId (fun x =>
          { x with confidence := applyPenalty m.confidence,
                   consecutiveRejections := m.consecutiveRejections + 1,
                   isActive := penalizedActive m.consecutiveRejections m.isActive,
                   applicationCount := m.applicationCount }),
        if penalizedActive m.consecutiveRejections m.isActive then
          { res with updatedMemories := res.updatedMemories ++ [cm.memoryId] }
        else
          { res with deactivatedMemories := res.deactivatedMemories ++ [cm.memoryId] }) := by
  simp [updateMemory, htype, hfind, learnStep, penalizedActive]
  split <;> rfl

theorem updateMemory_penalize_correction_eq (st : RepoState) (res : LearningResult)
    (cm : ContributingMemory) (m : CorrectionMemory)
    (htype : cm.memoryType = .correction)
    (hfind : findCorrectionMemoryById st cm.memoryId = some m) :
    updateMemory st res cm .penalize =
      (updateCorrectionMemory st cm.memoryId (fun x =>
          { x with confidence := applyPenalty m.confidence,
                   consecutiveRejections := m.consecutiveRejections + 1,
                   isActive := penalizedActive m.consecutiveRejections m.isActive,
                   applicationCount := m.applicationCount }),
        if penalizedActive m.consecutiveRejections m.isActive then
          { res with updatedMemories := res.updatedMemories ++ [cm.memoryId] }
        else
          { res with deactivatedMemories := res.deactivatedMemories ++ [cm.memoryId] }) := by
  simp [updateMemory, htype, hfind, learnStep, penalizedActive]
  split <;> rfl

theorem updateAll_penalize_vendor_spec :
    ∀ (l : List ContributingMemory) (p : RepoState × LearningResult)
      (cm : ContributingMemory) (m : VendorMemory),
      cm ∈ l → (l.map (fun c => c.memoryId)).Nodup →
      cm.memoryType = .vendor →
      findVendorMemoryById p.1 cm.memoryId = some m →
      cm.memoryId ∉ p.2.updatedMemories →
      cm.memoryId ∉ p.2.deactivatedMemories →
      ∃ m', findVendorMemoryById (updateAll .penalize p l).1 cm.memoryId = some m' ∧
        m'.confidence = applyPenalty m.confidence ∧
        m'.consecutiveRejections = m.consecutiveRejections + 1 ∧
        m'.applicationCount = m.applicationCount ∧
        m'.isActive = penalizedActive m.consecutiveRejections m.isActive ∧
        (m'.isActive = false →
          cm.memoryId ∈ (updateAll .penalize p l).2.deactivatedMemories ∧
          cm.memoryId ∉ (updateAll .penalize p l).2.updatedMemories) ∧
        (m'.isActive = true →
          cm.memoryId ∈ (updateAll .penalize p l).2.updatedMemories ∧
          cm.memoryId ∉ (updateAll .penalize p l).2.deactivatedMemories)
  | [], p, cm, m => by intro hmem; exact absurd hmem (List.not_mem_nil cm)
  | c :: t, p, cm, m => by
    intro hmem hnodup htype hfind hnu hnd
    have hnodup' : (t.map (fun c => c.memoryId)).Nodup :=
      (List.nodup_cons.mp (by simpa using hnodup)).2
    have hcnotin : c.memoryId ∉ t.map (fun c => c.memoryId) :=
      (List.nodup_cons.mp (by simpa using hnodup)).1
    have hfold : updateAll .penalize p (c :: t) =
        updateAll .penalize (updateMemory p.1 p.2 c .penalize) t := rfl
    rcases List.mem_cons.mp hmem with hceq | hmemt
    · subst hceq
      rw [hfold, updateMemory_penalize_vendor_eq p.1 p.2 cm m htype hfind]
      have hnotint : ∀ x ∈ t, cm.memoryId ≠ x.memoryId := by
        intro x hx h
        exact hcnotin (h ▸ List.mem_map_of_mem (fun c => c.memoryId) hx)
      refine ⟨{ m with
                confidence := applyPenalty m.confidence
                consecutiveRejections := m.consecutiveRejections + 1
                isActive := penalizedActive m.consecutiveRejections m.isActive
                applicationCount := m.applicationCount }, ?_, rfl, rfl, rfl, rfl, ?_, ?_⟩
      · rw [updateAll_vendor_frame .penalize t _ cm.memoryId hnotint]
        exact findVendorMemoryById_update_eq p.1 cm.memoryId
          (fun x => { x with
                      confidence := applyPenalty m.confidence
                      consecutiveRejections := m.consecutiveRejections + 1
                      isActive := penalizedActive m.consecutiveRejections m.isActive
                      applicationCount := m.applicationCount })
          (fun x => rfl) m hfind
      · intro hact
        have hact' : penalizedActive m.consecutiveRejections m.isActive = false := hact
        rw [if_neg (by simp [hact'])]
        constructor
        · exact updateAll_deact_mono .penalize t _ cm.memoryId
            (List.mem_append_right _ (List.mem_singleton_self _))
        · intro hin
          rcases updateAll_updated_prov .penalize t _ cm.memoryId hin with h1 | h1
          · exact hnu h1
          · exact absurd h1 (by
              intro h2
              rcases List.mem_map.mp h2 with ⟨x, hx, hxe⟩
              exact hnotint x hx hxe.symm)
      · intro hact
        have hact' : penalizedActive m.consecutiveRejections m.isActive = true := hact
        rw [if_pos (by simp [hact'])]
        constructor
        · exact updateAll_updated_mono .penalize t _ cm.memoryId
            (List.mem_append_right _ (List.mem_singleton_self _))
        · intro hin
          rcases updateAll_deact_prov .penalize t _ cm.memoryId hin with h1 | h1
          · exact hnd h1
          · exact absurd h1 (by
              intro h2
              rcases List.mem_map.mp h2 with ⟨x, hx, hxe⟩
              exact hnotint x hx hxe.symm)
    · have hne : cm.memoryId ≠ c.memoryId := by
        intro h
        exact hcnotin (h ▸ List.mem_map_of_mem (fun c => c.memoryId) hmemt)
      have hfind1 : findVendorMemoryById (updateMemory p.1 p.2 c .penalize).1
          cm.memoryId = some m := by
        rw [updateMemory_vendor_frame p.1 p.2 c .penalize cm.memoryId hne]
        exact hfind
      have hres := updateMemory_res_spec p.1 p.2 c .penalize
      have hnu1 : cm.memoryId ∉ (updateMemory p.1 p.2 c .penalize).2.updatedMemories := by
        rcases hres.1 with h1 | h1 <;> rw [h1]
        · exact hnu
        · intro hin
          rcases List.mem_append.mp hin with h2 | h2
          · exact hnu h2
          · exact hne (List.mem_singleton.mp h2)
      have hnd1 : cm.memoryId ∉ (updateMemory p.1 p.2 c .penalize).2.deactivatedMemories := by
        rcases hres.2 with h1 | h1 <;> rw [h1]
        · exact hnd
        · intro hin
          rcases List.mem_append.mp hin with h2 | h2
          · exact hnd h2
          · exact hne (List.mem_singleton.mp h2)
      rw [hfold]
      exact updateAll_penalize_vendor_spec t _ cm m hmemt hnodup' htype hfind1 hnu1 hnd1

theorem updateAll_penalize_correction_spec :
    ∀ (l : List ContributingMemory) (p : RepoState × LearningResult)
      (cm : ContributingMemory) (m : CorrectionMemory),
      cm ∈ l → (l.map (fun c => c.memoryId)).Nodup →
      cm.memoryType = .correction →
      findCorrectionMemoryById p.1 cm.memoryId = some m →
      cm.memoryId ∉ p.2.updatedMemories →
      cm.memoryId ∉ p.2.deactivatedMemories →
      ∃ m', findCorrectionMemoryById (updateAll .penalize p l).1 cm.memoryId = some m' ∧
        m'.confidence = applyPenalty m.confidence ∧
        m'.consecutiveRejections = m.consecutiveRejections + 1 ∧
        m'.applicationCount = m.applicationCount ∧
        m'.isActive = penalizedActive m.consecutiveRejections m.isActive ∧
        (m'.isActive = false →
          cm.memoryId ∈ (updateAll .penalize p l).2.deactivatedMemories ∧
          cm.memoryId ∉ (updateAll .penalize p l).2.updatedMemories) ∧
        (m'.isActive = true →
          cm.memoryId ∈ (updateAll .penalize p l).2.updatedMemories ∧
          cm.memoryId ∉ (updateAll .penalize p l).2.deactivatedMemories)
  | [], p, cm, m => by intro hmem; exact absurd hmem (List.not_mem_nil cm)
  | c :: t, p, cm, m => by
    intro hmem hnodup htype hfind hnu hnd
    have hnodup' : (t.map (fun c => c.memoryId)).Nodup :=
      (List.nodup_cons.mp (by simpa using hnodup)).2
    have hcnotin : c.memoryId ∉ t.map (fun c => c.memoryId) :=
      (List.nodup_cons.mp (by simpa using hnodup)).1
    have hfold : updateAll .penalize p (c :: t) =
        updateAll .penalize (updateMemory p.1 p.2 c .penalize) t := rfl
    rcases List.mem_cons.mp hmem with hceq | hmemt
    · subst hceq
      rw [hfold, updateMemory_penalize_correction_eq p.1 p.2 cm m htype hfind]
      have hnotint : ∀ x ∈ t, cm.memoryId ≠ x.memoryId := by
        intro x hx h
        exact hcnotin (h ▸ List.mem_map_of_mem (fun c => c.memoryId) hx)
      refine ⟨{ m with
                confidence := applyPenalty m.confidence
                consecutiveRejections := m.consecutiveRejections + 1
                isActive := penalizedActive m.consecutiveRejections m.isActive
                applicationCount := m.applicationCount }, ?_, rfl, rfl, rfl, rfl, ?_, ?_⟩
      · rw [updateAll_correction_frame .penalize t _ cm.memoryId hnotint]
        exact findCorrectionMemoryById_update_eq p.1 cm.memoryId
          (fun x => { x with
                      confidence := applyPenalty m.confidence
                      consecutiveRejections := m.consecutiveRejections + 1
                      isActive := penalizedActive m.consecutiveRejections m.isActive
                      applicationCount := m.applicationCount })
          (fun x => rfl) m hfind
      · intro hact
        have hact' : penalizedActive m.consecutiveRejections m.isActive = false := hact
        rw [if_neg (by simp [hact'])]
        constructor
        · exact updateAll_deact_mono .penalize t _ cm.memoryId
            (List.mem_append_right _ (List.mem_singleton_self _))
        · intro hin
          rcases updateAll_updated_prov .penalize t _ cm.memoryId hin with h1 | h1
          · exact hnu h1
          · exact absurd h1 (by
              intro h2
              rcases List.mem_map.mp h2 with ⟨x, hx, hxe⟩
              exact hnotint x hx hxe.symm)
      · intro hact
        have hact' : penalizedActive m.consecutiveRejections m.isActive = true := hact
        rw [if_pos (by simp [hact'])]
        constructor
        · exact updateAll_updated_mono .penalize t _ cm.memoryId
            (List.mem_append_right _ (List.mem_singleton_self _))
        · intro hin
          rcases updateAll_deact_prov .penalize t _ cm.memoryId hin with h1 | h1
          · exact hnd h1
          · exact absurd h1 (by
              intro h2
              rcases List.mem_map.mp h2 with ⟨x, hx, hxe⟩
              exact hnotint x hx hxe.symm)
    · have hne : cm.memoryId ≠ c.memoryId := by
        intro h
        exact hcnotin (h ▸ List.mem_map_of_mem (fun c => c.memoryId) hmemt)
      have hfind1 : findCorrectionMemoryById (updateMemory p.1 p.2 c .penalize).1
          cm.memoryId = some m := by
        rw [updateMemory_correction_frame p.1 p.2 c .penalize cm.memoryId hne]
        exact hfind
      have hres := updateMemory_res_spec p.1 p.2 c .penalize
      have hnu1 : cm.memoryId ∉ (updateMemory p.1 p.2 c .penalize).2.updatedMemories := by
        rcases hres.1 with h1 | h1 <;> rw [h1]
        · exact hnu
        · intro hin
          rcases List.mem_append.mp hin with h2 | h2
          · exact hnu h2
          · exact hne (List.mem_singleton.mp h2)
      have hnd1 : cm.memoryId ∉ (updateMemory p.1 p.2 c .penalize).2.deactivatedMemories := by
        rcases hres.2 with h1 | h1 <;> rw [h1]
        · exact hnd
        · intro hin
          rcases List.mem_append.mp hin with h2 | h2
          · exact hnd h2
          · exact hne (List.mem_singleton.mp h2)
      rw [hfold]
      exact updateAll_penalize_correction_spec t _ cm m hmemt hnodup' htype hfind1 hnu1 hnd1

/-- C2: on `reject` feedback, every contributing memory registered for the
invoice (vendor- or correction-kind, with pairwise-distinct ids) has its
confidence replaced by `applyPenalty` and its consecutive-rejections
counter incremented; the active flag becomes
`penalizedActive` (cleared exactly when the incremented counter reaches
the limit 3, deactivated but still stored); a memory that ends inactive is
reported in `deactivatedMemories` and not in `updatedMemories`, and one
that stays active is reported in `updatedMemories` only.  The application
count is untouched. -/
theorem C2_reject_penalizes (ls : LearnState) (fb : HumanFeedback)
    (invoice : Invoice) (cm : ContributingMemory)
    (hact : fb.action = .reject)
    (hmem : cm ∈ (ls.contributingMemories invoice.id).getD [])
    (hnodup : (((ls.contributingMemories invoice.id).getD []).map
      (fun c => c.memoryId)).Nodup) :
    (∀ m : VendorMemory, cm.memoryType = .vendor →
      findVendorMemoryById ls.repo cm.memoryId = some m →
      ∃ m', findVendorMemoryById (learnFromFeedback ls fb invoice).1.repo
          cm.memoryId = some m' ∧
        m'.confidence = applyPenalty m.confidence ∧
        m'.consecutiveRejections = m.consecutiveRejections + 1 ∧
        m'.applicationCount = m.applicationCount ∧
        m'.isActive = penalizedActive m.consecutiveRejections m.isActive ∧
        (m'.isActive = false →
          cm.memoryId ∈ (learnFromFeedback ls fb invoice).2.deactivatedMemories ∧
          cm.memoryId ∉ (learnFromFeedback ls fb invoice).2.updatedMemories) ∧
        (m'.isActive = true →
          cm.memoryId ∈ (learnFromFeedback ls fb invoice).2.updatedMemories ∧
          cm.memoryId ∉ (learnFromFeedback ls fb invoice).2.deactivatedMemories)) ∧
    (∀ m : CorrectionMemory, cm.memoryType = .correction →
      findCorrectionMemoryById ls.repo cm.memoryId = some m →
      ∃ m', findCorrectionMemoryById (learnFromFeedback ls fb invoice).1.repo
          cm.memoryId = some m' ∧
        m'.confidence = applyPenalty m.confidence ∧
        m'.consecutiveRejections = m.consecutiveRejections + 1 ∧
        m'.applicationCount = m.applicationCount ∧
        m'.isActive = penalizedActive m.consecutiveRejections m.isActive ∧
        (m'.isActive = false →
          cm.memoryId ∈ (learnFromFeedback ls fb invoice).2.deactivatedMemories ∧
          cm.memoryId ∉ (learnFromFeedback ls fb invoice).2.updatedMemories) ∧
        (m'.isActive = true →
          cm.memoryId ∈ (learnFromFeedback ls fb invoice).2.updatedMemories ∧
          cm.memoryId ∉ (learnFromFeedback ls fb invoice).2.deactivatedMemories)) := by
  constructor
  · intro m htype hfind
    obtain ⟨m', hfind', hconf, hrej, happ, hactv, himp1, himp2⟩ :=
      updateAll_penalize_vendor_spec ((ls.contributingMemories invoice.id).getD [])
        (ls.repo, ⟨[], [], []⟩) cm m hmem hnodup htype hfind
        (List.not_mem_nil _) (List.not_mem_nil _)
    refine ⟨m', ?_, hconf, hrej, happ, hactv, ?_, ?_⟩
    · simp only [learnFromFeedback, hact, findVendorMemoryById_saveAudit]
      exact hfind'
    · intro hf
      simp only [learnFromFeedback, hact]
      exact himp1 hf
    · intro hf
      simp only [learnFromFeedback, hact]
      exact himp2 hf
  · intro m htype hfind
    obtain ⟨m', hfind', hconf, hrej, happ, hactv, himp1, himp2⟩ :=
      updateAll_penalize_correction_spec ((ls.contributingMemories invoice.id).getD [])
        (ls.repo, ⟨[], [], []⟩) cm m hmem hnodup htype hfind
        (List.not_mem_nil _) (List.not_mem_nil _)
    refine ⟨m', ?_, hconf, hrej, happ, hactv, ?_, ?_⟩
    · simp only [learnFromFeedback, hact, findCorrectionMemoryById_saveAudit]
      exact hfind'
    · intro hf
      simp only [learnFromFeedback, hact]
      exact himp1 hf
    · intro hf
      simp only [learnFromFeedback, hact]
      exact himp2 hf

/-- C2 witness: a concrete vendor memory at 2 prior consecutive rejections
is penalized by a third `reject` and lands in the deactivated list. -/
theorem C2_reject_penalizes_witness :
    let m0 : VendorMemory :=
      ⟨"vm1", "acme", "Acme", "Leistungsdatum", "serviceDate", 8/10, 5, 2, true⟩
    let cm0 : ContributingMemory := ⟨"vm1", .vendor, "serviceDate", none⟩
    let ls0 : LearnState :=
      ⟨⟨[m0], [], [], [], []⟩,
        fun k => if k == "INV-9" then some [cm0] else none, 0⟩
    let inv0 : Invoice := ⟨"INV-9", "acme", "Acme", "R-9", 0, [], none, none⟩
    let fb0 : HumanFeedback := ⟨"INV-9", .reject, none⟩
    "vm1" ∈ (learnFromFeedback ls0 fb0 inv0).2.deactivatedMemories := by
  intro m0 cm0 ls0 inv0 fb0
  obtain ⟨m', hf, hc, hr, ha, hactv, himp1, himp2⟩ :=
    (C2_reject_penalizes ls0 fb0 inv0 cm0 rfl (by simp [ls0, cm0])
      (by simp [ls0, cm0])).1 m0 rfl rfl
  exact (himp1 (by rw [hactv]; decide)).1

theorem findVendorMemoryById_saveCorrection (st : RepoState)
    (c : CorrectionMemory) (id : String) :
    findVendorMemoryById (saveCorrectionMemory st c) id =
      findVendorMemoryById st id := rfl

theorem find?_append_of_none {α : Type} (p : α → Bool) :
    ∀ (l₁ l₂ : List α), l₁.find? p = none →
      (l₁ ++ l₂).find? p = l₂.find? p
  | [], l₂, _ => rfl
  | a :: t, l₂, h => by
    have ha : p a = false := by
      cases hpa : p a with
      | false => rfl
      | true => rw [List.find?_cons_of_pos _ hpa] at h; exact absurd h (by simp)
    rw [List.find?_cons_of_neg _ (by simp [ha])] at h
    rw [List.cons_append, List.find?_cons_of_neg _ (by simp [ha])]
    exact find?_append_of_none p t l₂ h

/-- Whether a `correct` feedback on `fieldName` counts as a field-mapping
discovery in `createMemory` (truthy original label distinct from the
field name). -/
def isMappingDiscovery (invoice : Invoice) (fieldName : String) : Bool :=
  match (invoice.fields.find? (fun f => f.name == fieldName)).bind
      (fun f => f.originalLabel) with
  | some lbl => lbl != "" && lbl != fieldName
  | none => false

theorem createMemory_not_mapping (corr : FieldCorrection) (invoice : Invoice)
    (vendorId : String) (st : RepoState) (nid : Nat) (res : LearningResult)
    (h : isMappingDiscovery invoice corr.fieldName = false) :
    createMemory corr invoice vendorId st nid res =
      (saveCorrectionMemory st ⟨freshId nid, some vendorId, corr.fieldName,
          (match corr.originalValue with | some v => v | none => "*"),
          corr.correctedValue, initialHumanCorrectionConfidence, 0, 0, true⟩,
        nid + 1,
        { res with createdMemories := res.createdMemories ++ [freshId nid] }) := by
  unfold createMemory
  unfold isMappingDiscovery at h
  cases hl : (invoice.fields.find? (fun f => f.name == corr.fieldName)).bind
      (fun f => f.originalLabel) with
  | none => simp [hl]
  | some lbl =>
    rw [hl] at h
    simp only [bne, Bool.and_eq_false_imp, Bool.not_eq_eq_eq_not, Bool.not_true,
      beq_eq_false_iff_ne] at h
    simp [hl]
    intro h1 h2
    exact absurd (h (by simpa using h1)) (by simpa using h2)

theorem updateMemory_contradict_vendor_eq (st : RepoState) (res : LearningResult)
    (cm : ContributingMemory) (m : VendorMemory)
    (htype : cm.memoryType = .vendor)
    (hfind : findVendorMemoryById st cm.memoryId = some m) :
    updateMemory st res cm .contradict =
      (updateVendorMemory st cm.memoryId (fun x =>
          { x with
            confidence := m.confidence * (1/2)
            consecutiveRejections := m.consecutiveRejections
            isActive := m.isActive
            applicationCount := m.applicationCount }),
        if m.isActive then
          { res with updatedMemories := res.updatedMemories ++ [cm.memoryId] }
        else
          { res with deactivatedMemories := res.deactivatedMemories ++ [cm.memoryId] }) := by
  simp [updateMemory, htype, hfind, learnStep]
  split <;> rfl

/-- C10 counterexample: the claim's "and then creating a new memory for the
field" fails.  A vendor memory with no recorded extracted value is indeed
contradicted (halved), but when the corrected field carries the same
distinct original label as that memory's mapping, `createMemory` reinforces
the existing (halved) memory instead of creating anything:
`createdMemories` is empty and the memory ends at
`applyReinforcement (0.8 * 0.5) = 0.43` with its application count bumped. -/
theorem C10_counterexample :
    let m0 : VendorMemory :=
      ⟨"vm1", "acme", "Acme", "Leistungsdatum", "serviceDate", 8/10, 2, 0, true⟩
    let cm0 : ContributingMemory := ⟨"vm1", .vendor, "serviceDate", none⟩
    let ls0 : LearnState :=
      ⟨⟨[m0], [], [], [], []⟩,
        fun k => if k == "INV-7" then some [cm0] else none, 0⟩
    let inv0 : Invoice :=
      ⟨"INV-7", "acme", "Acme", "R-7", 0,
        [⟨"serviceDate", some "x", 9/10, some "Leistungsdatum"⟩], none, none⟩
    let fb0 : HumanFeedback :=
      ⟨"INV-7", .correct, some [⟨"serviceDate", some "x", "2024-01-01"⟩]⟩
    (learnFromFeedback ls0 fb0 inv0).2.createdMemories = [] ∧
    findVendorMemoryById (learnFromFeedback ls0 fb0 inv0).1.repo "vm1" =
      some ⟨"vm1", "acme", "Acme", "Leistungsdatum", "serviceDate",
        43/100, 3, 0, true⟩ := by
  constructor <;> with_unfolding_all decide

/-- C10 (amended): on `correct` feedback over a single field correction
whose first registered contributing memory is vendor-kind with no recorded
extracted value, `learnFromFeedback` always takes the contradiction branch:
the memory's confidence is halved (rejection counter, application count and
active flag untouched) and control falls through to memory creation — which,
when the invoice field does not carry a distinct truthy original label,
creates exactly one new (correction) memory for the field at the initial
confidence 0.6.  The confirmation branch is impossible for such a memory:
a non-null suggested value requires a recorded extracted value or a
correction-kind memory. -/
theorem C10_correct_contradicts_vendor (ls : LearnState) (fb : HumanFeedback)
    (invoice : Invoice) (corr : FieldCorrection) (cm : ContributingMemory)
    (m : VendorMemory)
    (hact : fb.action = .correct)
    (hcorr : fb.corrections = some [corr])
    (hfindcm : ((ls.contributingMemories invoice.id).getD []).find?
      (fun x => x.fieldName == corr.fieldName) = some cm)
    (htype : cm.memoryType = .vendor)
    (hext : cm.extractedValue = none)
    (hfind : findVendorMemoryById ls.repo cm.memoryId = some m)
    (hnomap : isMappingDiscovery invoice corr.fieldName = false)
    (hfresh : findCorrectionMemoryById ls.repo (freshId ls.nextId) = none) :
    (findVendorMemoryById (learnFromFeedback ls fb invoice).1.repo cm.memoryId =
      some { m with confidence := m.confidence * (1/2) } ∧
     (learnFromFeedback ls fb invoice).2.createdMemories = [freshId ls.nextId] ∧
     findCorrectionMemoryById (learnFromFeedback ls fb invoice).1.repo
        (freshId ls.nextId) =
      some ⟨freshId ls.nextId, some (normalizeVendorName invoice.vendorId),
        corr.fieldName,
        (match corr.originalValue with | some v => v | none => "*"),
        corr.correctedValue, initialHumanCorrectionConfidence, 0, 0, true⟩) ∧
    (∀ (st : RepoState) (c : ContributingMemory),
      getMemorySuggestedValue st c ≠ none →
      c.extractedValue ≠ none ∨ c.memoryType = .correction) := by
  have hsug : getMemorySuggestedValue ls.repo cm = none := by
    simp [getMemorySuggestedValue, hext, htype]
  have hstep := updateMemory_contradict_vendor_eq ls.repo ⟨[], [], []⟩ cm m htype hfind
  have hq1 : (updateMemory ls.repo ⟨[], [], []⟩ cm .contradict).1 =
      updateVendorMemory ls.repo cm.memoryId (fun x =>
        { x with
          confidence := m.confidence * (1/2)
          consecutiveRejections := m.consecutiveRejections
          isActive := m.isActive
          applicationCount := m.applicationCount }) := by
    rw [hstep]
  have hq2 : (updateMemory ls.repo ⟨[], [], []⟩ cm .contradict).2.createdMemories
      = [] := by
    rw [hstep]
    split <;> rfl
  constructor
  · simp only [learnFromFeedback, hact, hcorr, List.foldl_cons, List.foldl_nil,
      processCorrection, hfindcm, hsug]
    rw [createMemory_not_mapping _ _ _ _ _ _ hnomap]
    refine ⟨?_, ?_, ?_⟩
    · show findVendorMemoryById _ cm.memoryId = _
      rw [findVendorMemoryById_saveAudit, findVendorMemoryById_saveCorrection,
        hq1]
      exact findVendorMemoryById_update_eq ls.repo cm.memoryId
        (fun x => { x with
                    confidence := m.confidence * (1/2)
                    consecutiveRejections := m.consecutiveRejections
                    isActive := m.isActive
                    applicationCount := m.applicationCount })
        (fun x => rfl) m hfind
    · show _ ++ [freshId ls.nextId] = [freshId ls.nextId]
      rw [hq2]
      rfl
    · show findCorrectionMemoryById _ (freshId ls.nextId) = _
      rw [findCorrectionMemoryById_saveAudit]
      unfold findCorrectionMemoryById saveCorrectionMemory
      rw [show (updateMemory ls.repo ⟨[], [], []⟩ cm .contradict).1.correctionTable
          = ls.repo.correctionTable by rw [hq1]; rfl]
      rw [find?_append_of_none _ _ _ hfresh]
      simp
  · intro st c h
    cases hc : c.extractedValue with
    | some v => exact Or.inl (by simp [hc])
    | none =>
      cases ht : c.memoryType with
      | correction => exact Or.inr rfl
      | vendor => exact absurd (by simp [getMemorySuggestedValue, hc, ht]) h

/-- C10 witness: the amended theorem instantiated at a concrete `correct`
feedback on a label-less field backed by a vendor memory with no extracted
value — exactly one correction memory is created. -/
theorem C10_correct_contradicts_vendor_witness :
    let m1 : VendorMemory :=
      ⟨"vm1", "acme", "Acme", "Leistungsdatum", "serviceDate", 8/10, 2, 0, true⟩
    let cm1 : ContributingMemory := ⟨"vm1", .vendor, "netTotal", none⟩
    let ls1 : LearnState :=
      ⟨⟨[m1], [], [], [], []⟩,
        fun k => if k == "INV-8" then some [cm1] else none, 0⟩
    let inv1 : Invoice :=
      ⟨"INV-8", "acme", "Acme", "R-8", 0,
        [⟨"netTotal", some "100", 9/10, none⟩], none, none⟩
    let fb1 : HumanFeedback :=
      ⟨"INV-8", .correct, some [⟨"netTotal", some "100", "120"⟩]⟩
    (learnFromFeedback ls1 fb1 inv1).2.createdMemories = ["mem-0"] := by
  intro m1 cm1 ls1 inv1 fb1
  have h := ((C10_correct_contradicts_vendor ls1 fb1 inv1
    ⟨"netTotal", some "100", "120"⟩ cm1 m1 rfl rfl rfl rfl rfl rfl rfl rfl).1).2.1
  rw [show freshId ls1.nextId = "mem-0" from by with_unfolding_all rfl] at h
  exact h

/-! ### Apply stage (src/services/apply.ts)

Locale-specific regex extraction (`FIELD_PATTERNS` plus the generic
label/value fallback of `ApplyService.extractValue`) is the pluggable
"extract value for field X from raw text" capability the spec places out
of scope; the vendor-memory loop is parameterised by it
(`extract rawText originalField normalizedField`).  The fixed pattern
detection of `detectPatterns` (currency / skonto / SKU / tax-inclusive)
is modelled exactly. -/

inductive AppliedMemoryType where
  | vendor | correction | resolution
deriving DecidableEq, Repr

structure AppliedMemory where
  memoryId : String
  memoryType : AppliedMemoryType
  fieldName : String
  action : ThresholdAction
  confidence : ℚ
  extractedValue : Option String
deriving DecidableEq, Repr

structure ProposedCorrection where
  fieldName : String
  currentValue : Option String
  suggestedValue : String
  memoryId : String
  confidence : ℚ
  reasoning : String
deriving DecidableEq, Repr

inductive PatternType where
  | tax_inclusive | skonto | currency_recovery | sku_mapping | po_match
deriving DecidableEq, Repr

/-- A detected pattern; the `details` payload is display data and elided. -/
structure DetectedPattern where
  type : PatternType
  fieldName : Option String
  suggestedAction : Option String
deriving DecidableEq, Repr

/-- JS truthiness of a nullable string value. -/
def truthy : Option String → Bool
  | none => false
  | some s => s != ""

/-- `Object.fromEntries(Object.entries(invoice.fields).map(([k,v]) => [k,v.value]))`. -/
def initNormalized (fields : List InvoiceField) : String → Option String :=
  fields.foldl (fun acc f => fun k => if k == f.name then f.value else acc k)
    (fun _ => none)

/-- The pluggable extraction capability
(rawText, originalFieldName, normalizedFieldName ↦ extracted value). -/
def ExtractFn : Type := Option String → String → String → Option String

/-- The vendor-memory loop body of `ApplyService.applyMemories`. -/
def applyVendorMemory (extract : ExtractFn) (invoice : Invoice)
    (acc : (String → Option String) × List ProposedCorrection × List AppliedMemory)
    (vm : VendorMemory) :
    (String → Option String) × List ProposedCorrection × List AppliedMemory :=
  let action := mapConfidenceToAction vm.confidence
  let current := acc.1 vm.normalizedFieldName
  let extracted := match current with
    | none => extract invoice.rawText vm.originalFieldName vm.normalizedFieldName
    | some _ => none
  let trace : AppliedMemory :=
    ⟨vm.id, .vendor, vm.normalizedFieldName, action, vm.confidence, extracted⟩
  if truthy extracted && (action == .auto_applied) then
    ((fun k => if k == vm.normalizedFieldName then extracted else acc.1 k),
      acc.2.1, acc.2.2 ++ [trace])
  else if truthy extracted then
    (acc.1,
      acc.2.1 ++ [⟨vm.normalizedFieldName, current, (extracted.getD ""), vm.id,
        vm.confidence,
        (if action == .flagged then "[LOW CONFIDENCE] " else "") ++
          "Vendor memory: " ++ vm.originalFieldName ++ " extracted value"⟩],
      acc.2.2 ++ [trace])
  else
    (acc.1, acc.2.1, acc.2.2 ++ [trace])

/-- The trace entry the correction-memory loop always records. -/
def traceOfCorrection (cmem : CorrectionMemory) : AppliedMemory :=
  ⟨cmem.id, .correction, cmem.fieldName, mapConfidenceToAction cmem.confidence,
    cmem.confidence, some cmem.correctedValue⟩

/-- The correction-memory loop body of `ApplyService.applyMemories`. -/
def applyCorrectionMemory
    (acc : (String → Option String) × List ProposedCorrection × List AppliedMemory)
    (cmem : CorrectionMemory) :
    (String → Option String) × List ProposedCorrection × List AppliedMemory :=
  let action := mapConfidenceToAction cmem.confidence
  if action = .auto_applied then
    ((fun k => if k == cmem.fieldName then some cmem.correctedValue else acc.1 k),
      acc.2.1, acc.2.2 ++ [traceOfCorrection cmem])
  else if action = .suggested then
    (acc.1,
      acc.2.1 ++ [⟨cmem.fieldName, acc.1 cmem.fieldName, cmem.correctedValue,
        cmem.id, cmem.confidence,
        "Correction memory suggests " ++ cmem.correctedValue⟩],
      acc.2.2 ++ [traceOfCorrection cmem])
  else
    (acc.1, acc.2.1, acc.2.2 ++ [traceOfCorrection cmem])

/-! #### detectPatterns -/

def isWordChar (c : Char) : Bool := c.isAlphanum || c == '_'

def currencyCodes : List (List Char) :=
  [['e','u','r'], ['u','s','d'], ['c','h','f'], ['g','b','p']]

/-- Does one of the currency codes match at the head of `l` with a word
boundary after it? -/
def matchCodeAt (l : List Char) (code : List Char) : Bool :=
  code.isPrefixOf l &&
    (match l.drop code.length with
     | [] => true
     | c :: _ => !isWordChar c)

/-- Leftmost word-bounded occurrence of a supported currency code
(`/\b(eur|usd|chf|gbp)\b/i` on the lowered text). -/
def findCurrencyCode : Bool → List Char → Option (List Char)
  | _, [] => none
  | prev, c :: rest =>
    if !prev then
      match currencyCodes.find? (fun code => matchCodeAt (c :: rest) code) with
      | some code => some code
      | none => findCurrencyCode (isWordChar c) rest
    else findCurrencyCode (isWordChar c) rest

/-- Does `/\d+%\s*(bei|within|innerhalb)/` match at the head of `l`? -/
def startsSkonto (l : List Char) : Bool :=
  match l with
  | c :: rest =>
    if c.isDigit then
      match rest.dropWhile Char.isDigit with
      | '%' :: r2 =>
        let r3 := r2.dropWhile Char.isWhitespace
        ['b','e','i'].isPrefixOf r3 || ['w','i','t','h','i','n'].isPrefixOf r3 ||
          ['i','n','n','e','r','h','a','l','b'].isPrefixOf r3
      | _ => false
    else false
  | [] => false

def anyPosition (p : List Char → Bool) : List Char → Bool
  | [] => p []
  | c :: rest => p (c :: rest) || anyPosition p rest

/-- The currency code recovered by `detectPatterns`, when the normalized
record has no truthy currency and the lowered raw text contains a
word-bounded supported code. -/
def currencyHit (invoice : Invoice) (norm : String → Option String) :
    Option (List Char) :=
  if !truthy (norm "currency") then
    findCurrencyCode false (toLowerStr (invoice.rawText.getD "")).data
  else none

/-- `ApplyService.detectPatterns`: pattern detection over the lowered raw
text; recovers a missing currency into the normalized record and emits
the detected patterns (in source order: currency, skonto, SKU, tax). -/
def detectPatterns (invoice : Invoice) (norm : String → Option String) :
    (String → Option String) × List DetectedPattern :=
  let text := toLowerStr (invoice.rawText.getD "")
  let norm1 : String → Option String :=
    match currencyHit invoice norm with
    | some code =>
      fun k => if k == "currency" then some (⟨code.map Char.toUpper⟩ : String)
        else norm k
    | none => norm
  let pats1 : List DetectedPattern :=
    match currencyHit invoice norm with
    | some code =>
      [⟨.currency_recovery, some "currency",
        some ("Recovered currency " ++ (⟨code.map Char.toUpper⟩ : String))⟩]
    | none => []
  let pats2 := pats1 ++
    (if containsSub text "skonto" || anyPosition startsSkonto text.data then
      [(⟨.skonto, none, some "Skonto terms detected"⟩ : DetectedPattern)]
    else [])
  let pats3 := pats2 ++
    (if containsSub text "seefracht" || containsSub text "shipping" ||
        containsSub text "freight" then
      [(⟨.sku_mapping, some "sku",
        some "SKU mapping: Seefracht/Shipping to FREIGHT"⟩ : DetectedPattern)]
    else [])
  let pats4 := pats3 ++
    (if containsSub text "incl. vat" || containsSub text "mwst. inkl" ||
        containsSub text "inkl. mwst" then
      [(⟨.tax_inclusive, none,
        some "Tax inclusive indicator found - verify amounts"⟩ : DetectedPattern)]
    else [])
  (norm1, pats4)

structure AppliedResult where
  normalizedInvoice : String → Option String
  appliedMemories : List AppliedMemory
  proposedCorrections : List ProposedCorrection

/-- `ApplyService.applyMemories`: vendor loop, correction loop, pattern
detection, audit entry. -/
def applyMemories (extract : ExtractFn) (invoice : Invoice)
    (memories : RecalledMemories) :
    AppliedResult × List DetectedPattern × AuditEntry :=
  let start := (initNormalized invoice.fields, ([] : List ProposedCorrection),
    ([] : List AppliedMemory))
  let afterVendor := memories.vendorMemories.foldl
    (applyVendorMemory extract invoice) start
  let afterCorr := memories.correctionMemories.foldl applyCorrectionMemory
    afterVendor
  let pd := detectPatterns invoice afterCorr.1
  ({ normalizedInvoice := pd.1, appliedMemories := afterCorr.2.2,
     proposedCorrections := afterCorr.2.1 },
    pd.2,
    ⟨"apply", "Applied " ++ toString afterCorr.2.2.length ++ " memories, " ++
      toString afterCorr.2.1.length ++ " corrections proposed"⟩)

/-! ### Lemmas about the correction-memory loop (claim C6) -/

theorem applyCorrectionMemory_trace (acc : (String → Option String) ×
    List ProposedCorrection × List AppliedMemory) (c : CorrectionMemory) :
    (applyCorrectionMemory acc c).2.2 = acc.2.2 ++ [traceOfCorrection c] := by
  simp only [applyCorrectionMemory]
  split_ifs <;> rfl

theorem applyCorrections_traces :
    ∀ (cms : List CorrectionMemory) (acc : (String → Option String) ×
      List ProposedCorrection × List AppliedMemory),
      (cms.foldl applyCorrectionMemory acc).2.2 =
        acc.2.2 ++ cms.map traceOfCorrection
  | [], acc => by simp
  | c :: t, acc => by
    simp only [List.foldl_cons, List.map_cons]
    rw [applyCorrections_traces t _, applyCorrectionMemory_trace]
    simp

theorem applyCorrectionMemory_props (acc : (String → Option String) ×
    List ProposedCorrection × List AppliedMemory) (c : CorrectionMemory) :
    (applyCorrectionMemory acc c).2.1 = acc.2.1 ∨
    (mapConfidenceToAction c.confidence = .suggested ∧
      (applyCorrectionMemory acc c).2.1 = acc.2.1 ++
        [⟨c.fieldName, acc.1 c.fieldName, c.correctedValue, c.id, c.confidence,
          "Correction memory suggests " ++ c.correctedValue⟩]) := by
  simp only [applyCorrectionMemory]
  split_ifs with h1 h2
  · exact Or.inl rfl
  · exact Or.inr ⟨h2, rfl⟩
  · exact Or.inl rfl

theorem applyCorrectionMemory_suggested_eq (acc : (String → Option String) ×
    List ProposedCorrection × List AppliedMemory) (c : CorrectionMemory)
    (hs : mapConfidenceToAction c.confidence = .suggested) :
    (applyCorrectionMemory acc c).2.1 = acc.2.1 ++
      [⟨c.fieldName, acc.1 c.fieldName, c.correctedValue, c.id, c.confidence,
        "Correction memory suggests " ++ c.correctedValue⟩] := by
  simp only [applyCorrectionMemory]
  rw [if_neg (by simp [hs]), if_pos hs]

theorem applyCorrections_props_mono :
    ∀ (cms : List CorrectionMemory) (acc) (q : ProposedCorrection),
      q ∈ acc.2.1 → q ∈ (cms.foldl applyCorrectionMemory acc).2.1
  | [], _, _, h => h
  | c :: t, acc, q, h => by
    simp only [List.foldl_cons]
    apply applyCorrections_props_mono t
    rcases applyCorrectionMemory_props acc c with h1 | ⟨_, h1⟩ <;> rw [h1]
    · exact h
    · exact List.mem_append_left _ h

theorem applyCorrections_props_prov :
    ∀ (cms : List CorrectionMemory) (acc) (q : ProposedCorrection),
      q ∈ (cms.foldl applyCorrectionMemory acc).2.1 →
      q ∈ acc.2.1 ∨ ∃ cmem, cmem ∈ cms ∧
        mapConfidenceToAction cmem.confidence = .suggested ∧
        q.fieldName = cmem.fieldName ∧ q.suggestedValue = cmem.correctedValue ∧
        q.memoryId = cmem.id ∧ q.confidence = cmem.confidence
  | [], _, _, h => Or.inl h
  | c :: t, acc, q, h => by
    simp only [List.foldl_cons] at h
    rcases applyCorrections_props_prov t _ q h with h1 | ⟨cmem, hc, rest⟩
    · rcases applyCorrectionMemory_props acc c with h2 | ⟨hs, h2⟩
      · rw [h2] at h1
        exact Or.inl h1
      · rw [h2] at h1
        rcases List.mem_append.mp h1 with h3 | h3
        · exact Or.inl h3
        · have h4 := List.mem_singleton.mp h3
          subst h4
          exact Or.inr ⟨c, List.mem_cons_self _ _, hs, rfl, rfl, rfl, rfl⟩
    · exact Or.inr ⟨cmem, List.mem_cons_of_mem _ hc, rest⟩

theorem applyCorrections_suggested :
    ∀ (cms : List CorrectionMemory) (acc) (cm : CorrectionMemory),
      cm ∈ cms → mapConfidenceToAction cm.confidence = .suggested →
      ∃ q ∈ (cms.foldl applyCorrectionMemory acc).2.1,
        q.fieldName = cm.fieldName ∧ q.suggestedValue = cm.correctedValue ∧
        q.memoryId = cm.id ∧ q.confidence = cm.confidence
  | [], _, cm, hmem, _ => absurd hmem (List.not_mem_nil cm)
  | c :: t, acc, cm, hmem, hs => by
    rcases List.mem_cons.mp hmem with hceq | hmemt
    · subst hceq
      simp only [List.foldl_cons]
      refine ⟨⟨cm.fieldName, acc.1 cm.fieldName, cm.correctedValue, cm.id,
        cm.confidence, "Correction memory suggests " ++ cm.correctedValue⟩,
        ?_, rfl, rfl, rfl, rfl⟩
      apply applyCorrections_props_mono t
      rw [applyCorrectionMemory_suggested_eq acc cm hs]
      exact List.mem_append_right _ (List.mem_singleton_self _)
    · simp only [List.foldl_cons]
      exact applyCorrections_suggested t _ cm hmemt hs

theorem applyCorrectionMemory_norm_other (acc : (String → Option String) ×
    List ProposedCorrection × List AppliedMemory) (c : CorrectionMemory)
    (f : String)
    (h : c.fieldName = f → mapConfidenceToAction c.confidence ≠ .auto_applied) :
    (applyCorrectionMemory acc c).1 f = acc.1 f := by
  simp only [applyCorrectionMemory]
  split_ifs with h1 h2
  · simp only []
    rw [if_neg]
    simp only [beq_iff_eq]
    intro he
    exact (h he.symm) h1
  · rfl
  · rfl

theorem applyCorrections_no_auto :
    ∀ (cms : List CorrectionMemory) (acc) (f : String),
      (∀ c ∈ cms, c.fieldName = f →
        mapConfidenceToAction c.confidence ≠ .auto_applied) →
      (cms.foldl applyCorrectionMemory acc).1 f = acc.1 f
  | [], _, _, _ => rfl
  | c :: t, acc, f, h => by
    simp only [List.foldl_cons]
    rw [applyCorrections_no_auto t _ f
      (fun c' hc' => h c' (List.mem_cons_of_mem _ hc'))]
    exact applyCorrectionMemory_norm_other acc c f (h c (List.mem_cons_self _ _))

theorem applyCorrectionMemory_norm_auto (acc : (String → Option String) ×
    List ProposedCorrection × List AppliedMemory) (c : CorrectionMemory)
    (h : mapConfidenceToAction c.confidence = .auto_applied) :
    (applyCorrectionMemory acc c).1 c.fieldName = some c.correctedValue := by
  simp only [applyCorrectionMemory]
  rw [if_pos h]
  simp

/-- C6: for every correction memory processed by the Apply-stage
correction loop (processed from an arbitrary intermediate state `acc`,
with pairwise-distinct memory ids and no pre-existing proposal carrying
this memory's id): an applied-memory trace entry (memory id,
kind = correction, field, threshold action, confidence) is always
recorded; a `suggested` action emits a proposed correction carrying the
memory's field, corrected value, id and confidence; a non-`suggested`
action (`auto_applied` or `flagged`) emits no proposed correction for this
memory; an `auto_applied` action overwrites the target field of the
normalized record with the corrected value (surviving to the end of the
loop when no later auto-applied memory targets the same field); and a
field targeted by no auto-applied memory is never mutated (so `suggested`
and `flagged` memories mutate nothing). -/
theorem C6_correction_memory_application
    (acc : (String → Option String) × List ProposedCorrection × List AppliedMemory)
    (cms : List CorrectionMemory) (cm : CorrectionMemory)
    (hmem : cm ∈ cms) (hnodup : (cms.map (fun c => c.id)).Nodup)
    (hacc : ∀ q ∈ acc.2.1, q.memoryId ≠ cm.id) :
    ((cms.foldl applyCorrectionMemory acc).2.2 =
      acc.2.2 ++ cms.map traceOfCorrection) ∧
    (mapConfidenceToAction cm.confidence = .suggested →
      ∃ q ∈ (cms.foldl applyCorrectionMemory acc).2.1,
        q.fieldName = cm.fieldName ∧ q.suggestedValue = cm.correctedValue ∧
        q.memoryId = cm.id ∧ q.confidence = cm.confidence) ∧
    (mapConfidenceToAction cm.confidence ≠ .suggested →
      ∀ q ∈ (cms.foldl applyCorrectionMemory acc).2.1, q.memoryId ≠ cm.id) ∧
    (∀ pre post, cms = pre ++ cm :: post →
      mapConfidenceToAction cm.confidence = .auto_applied →
      (∀ c' ∈ post, c'.fieldName = cm.fieldName →
        mapConfidenceToAction c'.confidence ≠ .auto_applied) →
      (cms.foldl applyCorrectionMemory acc).1 cm.fieldName =
        some cm.correctedValue) ∧
    (∀ f, (∀ c ∈ cms, c.fieldName = f →
        mapConfidenceToAction c.confidence ≠ .auto_applied) →
      (cms.foldl applyCorrectionMemory acc).1 f = acc.1 f) := by
  refine ⟨applyCorrections_traces cms acc, ?_, ?_, ?_, ?_⟩
  · exact fun hs => applyCorrections_suggested cms acc cm hmem hs
  · intro hns q hq hqid
    rcases applyCorrections_props_prov cms acc q hq with h1 | ⟨cmem, hc, hsug, _, _, hid, _⟩
    · exact hacc q h1 hqid
    · have : cmem = cm :=
        List.inj_on_of_nodup_map hnodup hc hmem (by rw [← hqid, hid])
      rw [this] at hsug
      exact hns hsug
  · intro pre post hsplit hauto hpost
    subst hsplit
    rw [List.foldl_append, List.foldl_cons]
    rw [applyCorrections_no_auto post _ cm.fieldName
      (fun c' hc' hf => hpost c' hc' hf)]
    exact applyCorrectionMemory_norm_auto _ cm hauto
  · exact fun f hf => applyCorrections_no_auto cms acc f hf

/-- C6 witness: a concrete suggested-action correction memory emits a
proposed correction in the Apply stage. -/
theorem C6_correction_memory_application_witness :
    let cm : CorrectionMemory :=
      ⟨"cm1", none, "taxRate", "*", "19", 75/100, 0, 0, true⟩
    let acc : (String → Option String) × List ProposedCorrection ×
      List AppliedMemory := (fun _ => none, [], [])
    ∃ q ∈ ([cm].foldl applyCorrectionMemory acc).2.1,
      q.fieldName = cm.fieldName ∧ q.suggestedValue = cm.correctedValue ∧
      q.memoryId = cm.id ∧ q.confidence = cm.confidence := by
  intro cm acc
  exact (C6_correction_memory_application acc [cm] cm
    (List.mem_singleton_self _) (by simp) (by simp)).2.1
    (by with_unfolding_all decide)

/-! ### Decision stage (src/services/decision.ts) -/

structure DuplicateWarning where
  potentialDuplicateIds : List String
deriving DecidableEq, Repr

structure Decision where
  requiresHumanReview : Bool
  overallConfidence : ℚ
  reasoning : String
  flaggedFields : List String
  duplicateWarning : Option DuplicateWarning
deriving DecidableEq, Repr

/-- JS `Array.join(' ')`. -/
def joinSpace : List String → String
  | [] => ""
  | [s] => s
  | s :: rest => s ++ " " ++ joinSpace rest

/-- JS `Array.join(', ')`. -/
def joinComma : List String → String
  | [] => ""
  | [s] => s
  | s :: rest => s ++ ", " ++ joinComma rest

/-- `[...new Set(l)]` (first occurrences, in order). -/
def dedupFirst (l : List String) : List String :=
  l.foldl (fun acc x => if acc.contains x then acc else acc ++ [x]) []

/-- `DecisionService.checkForDuplicates`. -/
def checkForDuplicates (st : RepoState) (invoice : Invoice) :
    Option DuplicateWarning :=
  let ids := (findPotentialDuplicates st (normalizeVendorName invoice.vendorId)
    invoice.invoiceNumber invoice.invoiceDateMs).filter
    (fun id => id != invoice.id)
  if ids.isEmpty then none else some ⟨ids⟩

/-- The per-field maximum applied-memory confidence map of
`calcOverallConfidence` (JS `Map` built by the first loop). -/
def memConfMap (memories : List AppliedMemory) : String → Option ℚ :=
  memories.foldl (fun acc m => fun k =>
    if k == m.fieldName then
      some (match acc m.fieldName with
        | none => m.confidence
        | some c => if c < m.confidence then m.confidence else c)
    else acc k) (fun _ => none)

/-- `DecisionService.calcOverallConfidence`. -/
def calcOverallConfidence (invoice : Invoice) (memories : List AppliedMemory) :
    ℚ :=
  let confs := invoice.fields.map (fun f =>
    match memConfMap memories f.name with
    | some mc => mc * jsMin f.extractionConfidence 1
    | none => jsMin f.extractionConfidence (suggestionThreshold - 1/100))
  if confs.length = 0 then 0
  else jsMax 0 (jsMin 1 (confs.sum / (confs.length : ℚ)))

/-- `DecisionService.makeDecision`: sequential signal evaluation, each
capable of forcing review, reasons accumulated in evaluation order with a
summary sentence prepended last. -/
def makeDecision (st : RepoState) (appliedResult : AppliedResult)
    (invoice : Invoice) (detectedPatterns : List DetectedPattern) :
    Decision × AuditEntry :=
  let dup := checkForDuplicates st invoice
  let review0 := dup.isSome
  let reasons0 : List String := match dup with
    | some w => ["Potential duplicate: " ++ joinComma w.potentialDuplicateIds]
    | none => []
  let lowFields := (invoice.fields.filter
    (fun f => decide (f.extractionConfidence < 6/10))).map (fun f => f.name)
  let review1 := review0 || !lowFields.isEmpty
  let flagged1 := lowFields
  let reasons1 := reasons0 ++ (if lowFields.isEmpty then [] else
    ["Low extraction confidence: " ++ joinComma lowFields])
  let matchedNames := appliedResult.appliedMemories.map (fun m => m.fieldName)
  let unmatched := (invoice.fields.map (fun f => f.name)).filter
    (fun f => !(matchedNames.contains f))
  let review2 := review1 || !unmatched.isEmpty
  let flagged2 := unmatched.foldl
    (fun fl f => if fl.contains f then fl else fl ++ [f]) flagged1
  let reasons2 := reasons1 ++ (if unmatched.isEmpty then [] else
    ["No memory match: " ++ joinComma unmatched])
  let highConfCount := (appliedResult.appliedMemories.filter
    (fun m => decide (autoApplyThreshold ≤ m.confidence))).length
  let sweep := appliedResult.appliedMemories.foldl
    (fun (p : List String × Bool) mem =>
      if decide (autoApplyThreshold ≤ mem.confidence) then p
      else if decide (mem.confidence < suggestionThreshold) &&
          !(p.1.contains mem.fieldName) then (p.1 ++ [mem.fieldName], true)
      else p) (flagged2, review2)
  let review4 := sweep.2 || !appliedResult.proposedCorrections.isEmpty
  let reasons3 := reasons2 ++ (if appliedResult.proposedCorrections.isEmpty
    then [] else
    [toString appliedResult.proposedCorrections.length ++ " proposed correction(s)"])
  let reasons4 := reasons3 ++ detectedPatterns.filterMap (fun p =>
    match p.suggestedAction with
    | some s => if s != "" then some s else none
    | none => none)
  let review5 := review4 ||
    detectedPatterns.any (fun p => p.type == PatternType.tax_inclusive)
  let overallConfidence := calcOverallConfidence invoice
    appliedResult.appliedMemories
  let totalFields := invoice.fields.length
  let reasonsFinal :=
    if !review5 && (highConfCount == totalFields) && decide (0 < totalFields) then
      "All fields high confidence. Auto-accept recommended." :: reasons4
    else if review5 then "Human review required." :: reasons4
    else reasons4
  ({ requiresHumanReview := review5
     overallConfidence := overallConfidence
     reasoning := joinSpace reasonsFinal
     flaggedFields := dedupFirst sweep.1
     duplicateWarning := dup },
    ⟨"decide", "Invoice " ++ invoice.id ++
      (if review5 then ": REVIEW" else ": AUTO")⟩)

/-! ### Claim C3: the overall-confidence formula

`specOverallConfidence` below follows the specification's words: per
invoice field, `memoryConfidence * min(extractionConfidence, 1)` when an
applied memory exists for the field (`memoryConfidence` being the highest
applied-memory confidence for it), else
`min(extractionConfidence, suggestionThreshold - ε)` with `ε = 0.01`;
arithmetic mean over all fields, clamped to [0,1]; zero fields give 0. -/

def clamp01 (x : ℚ) : ℚ := jsMax 0 (jsMin 1 x)

/-- The highest confidence among applied memories for a field name, when
one exists. -/
def specMemoryConfidence (memories : List AppliedMemory) (name : String) :
    Option ℚ :=
  match (memories.filter (fun m => m.fieldName == name)).map
      (fun m => m.confidence) with
  | [] => none
  | c :: cs => some (cs.foldl max c)

def specFieldScore (memories : List AppliedMemory) (f : InvoiceField) : ℚ :=
  match specMemoryConfidence memories f.name with
  | some mc => mc * jsMin f.extractionConfidence 1
  | none => jsMin f.extractionConfidence (suggestionThreshold - 1/100)

def specOverallConfidence (invoice : Invoice) (memories : List AppliedMemory) :
    ℚ :=
  if invoice.fields = [] then 0
  else clamp01 ((invoice.fields.map (specFieldScore memories)).sum /
    (invoice.fields.length : ℚ))

theorem ite_lt_max (x c : ℚ) : (if x < c then c else x) = max x c := by
  rcases le_or_lt c x with h | h
  · rw [if_neg (not_lt.mpr h), max_eq_left h]
  · rw [if_pos h, max_eq_right (le_of_lt h)]

/-- Merging one more confidence into the running maximum map. -/
def mergeMax (o : Option ℚ) (l : List ℚ) : Option ℚ :=
  l.foldl (fun o c => some (match o with
    | none => c
    | some x => if x < c then c else x)) o

theorem memConfMap_aux :
    ∀ (ms : List AppliedMemory) (acc : String → Option ℚ) (name : String),
      (ms.foldl (fun acc m => fun k =>
        if k == m.fieldName then
          some (match acc m.fieldName with
            | none => m.confidence
            | some c => if c < m.confidence then m.confidence else c)
        else acc k) acc) name =
      mergeMax (acc name)
        ((ms.filter (fun m => m.fieldName == name)).map (fun m => m.confidence))
  | [], acc, name => rfl
  | m :: t, acc, name => by
    simp only [List.foldl_cons]
    rw [memConfMap_aux t _ name]
    by_cases h : m.fieldName = name
    · have h1 : (name == m.fieldName) = true := beq_iff_eq.mpr h.symm
      have h2 : (m.fieldName == name) = true := beq_iff_eq.mpr h
      have hfil : List.filter (fun x => x.fieldName == name) (m :: t) =
          m :: List.filter (fun x => x.fieldName == name) t := by
        simp [List.filter_cons, h2]
      rw [hfil, List.map_cons, if_pos h1, h]
      rfl
    · have h1 : (name == m.fieldName) = false :=
        beq_eq_false_iff_ne.mpr (fun he => h he.symm)
      have h2 : (m.fieldName == name) = false := beq_eq_false_iff_ne.mpr h
      have hfil : List.filter (fun x => x.fieldName == name) (m :: t) =
          List.filter (fun x => x.fieldName == name) t := by
        simp [List.filter_cons, h2]
      rw [hfil, if_neg (by simp [h1])]

theorem mergeMax_some : ∀ (cs : List ℚ) (c : ℚ),
    mergeMax (some c) cs = some (cs.foldl max c)
  | [], c => rfl
  | d :: t, c => by
    simp only [mergeMax, List.foldl_cons] at *
    rw [show (if c < d then d else c) = max c d from ite_lt_max c d] at *
    exact mergeMax_some t (max c d)

theorem memConfMap_eq_spec (memories : List AppliedMemory) (name : String) :
    memConfMap memories name = specMemoryConfidence memories name := by
  unfold memConfMap specMemoryConfidence
  rw [memConfMap_aux memories (fun _ => none) name]
  cases hf : (memories.filter (fun m => m.fieldName == name)).map
      (fun m => m.confidence) with
  | nil => rfl
  | cons c cs =>
    simp only [mergeMax, List.foldl_cons]
    exact mergeMax_some cs c

theorem foldl_max_spec : ∀ (cs : List ℚ) (c : ℚ),
    (cs.foldl max c = c ∨ cs.foldl max c ∈ cs) ∧
    c ≤ cs.foldl max c ∧ ∀ x ∈ cs, x ≤ cs.foldl max c
  | [], c => ⟨Or.inl rfl, le_refl c, by simp⟩
  | d :: t, c => by
    obtain ⟨hmem, hle, hall⟩ := foldl_max_spec t (max c d)
    simp only [List.foldl_cons]
    refine ⟨?_, le_trans (le_max_left c d) hle, ?_⟩
    · rcases hmem with h | h
      · rcases max_choice c d with hc | hc
        · exact Or.inl (h.trans hc)
        · exact Or.inr (by rw [h, hc]; exact List.mem_cons_self d t)
      · exact Or.inr (List.mem_cons_of_mem d h)
    · intro x hx
      rcases List.mem_cons.mp hx with hx' | hx'
      · rw [hx']
        exact le_trans (le_max_right c d) hle
      · exact hall x hx'

/-- C3: the Decide stage's overall confidence equals the arithmetic mean,
over all invoice fields, of `memoryConfidence * min(extractionConfidence,1)`
when an applied-memory trace exists for the field and
`min(extractionConfidence, suggestionThreshold - 0.01)` otherwise, clamped
to [0,1], with 0 for an invoice with zero fields — where `memoryConfidence`
for a field is exactly the highest confidence among the applied memories
tracing to it, and the memory case applies exactly when such a trace
exists. -/
theorem C3_overall_confidence (invoice : Invoice)
    (memories : List AppliedMemory) :
    calcOverallConfidence invoice memories =
      specOverallConfidence invoice memories ∧
    (∀ name, specMemoryConfidence memories name = none ↔
      ∀ m ∈ memories, m.fieldName ≠ name) ∧
    (∀ name mc, specMemoryConfidence memories name = some mc →
      (∃ m ∈ memories, m.fieldName = name ∧ m.confidence = mc) ∧
      (∀ m ∈ memories, m.fieldName = name → m.confidence ≤ mc)) := by
  refine ⟨?_, ?_, ?_⟩
  · unfold calcOverallConfidence specOverallConfidence clamp01
    have hmap : invoice.fields.map (fun f =>
        match memConfMap memories f.name with
        | some mc => mc * jsMin f.extractionConfidence 1
        | none => jsMin f.extractionConfidence (suggestionThreshold - 1/100)) =
        invoice.fields.map (specFieldScore memories) := by
      apply List.map_congr_left
      intro f _
      rw [specFieldScore, memConfMap_eq_spec]
    rw [hmap]
    simp only [List.length_map]
    by_cases hnil : invoice.fields = []
    · simp [hnil]
    · rw [if_neg (by simpa using hnil), if_neg hnil]
  · intro name
    unfold specMemoryConfidence
    cases hf : (memories.filter (fun m => m.fieldName == name)).map
        (fun m => m.confidence) with
    | nil =>
      simp only [true_iff]
      intro m hm he
      have : m.confidence ∈ (memories.filter (fun m => m.fieldName == name)).map
          (fun m => m.confidence) :=
        List.mem_map_of_mem _ (List.mem_filter.mpr ⟨hm, beq_iff_eq.mpr he⟩)
      rw [hf] at this
      exact absurd this (List.not_mem_nil _)
    | cons c cs =>
      simp only [reduceCtorEq, false_iff, not_forall]
      have : c ∈ (memories.filter (fun m => m.fieldName == name)).map
          (fun m => m.confidence) := by rw [hf]; exact List.mem_cons_self c cs
      rcases List.mem_map.mp this with ⟨m, hm, _⟩
      have hmf := List.mem_filter.mp hm
      exact ⟨m, hmf.1, by simpa using beq_iff_eq.mp hmf.2⟩
  · intro name mc hmc
    unfold specMemoryConfidence at hmc
    cases hf : (memories.filter (fun m => m.fieldName == name)).map
        (fun m => m.confidence) with
    | nil => rw [hf] at hmc; exact absurd hmc (by simp)
    | cons c cs =>
      rw [hf] at hmc
      have hmc' : cs.foldl max c = mc := by
        simpa using hmc
      obtain ⟨hsrc, hlec, hall⟩ := foldl_max_spec cs c
      constructor
      · have hval : mc ∈ c :: cs := by
          rcases hsrc with h | h
          · rw [← hmc', h]
            exact List.mem_cons_self c cs
          · rw [← hmc']
            exact List.mem_cons_of_mem c h
        have : mc ∈ (memories.filter (fun m => m.fieldName == name)).map
            (fun m => m.confidence) := by rw [hf]; exact hval
        rcases List.mem_map.mp this with ⟨m, hm, hme⟩
        have hmf := List.mem_filter.mp hm
        exact ⟨m, hmf.1, by simpa using beq_iff_eq.mp hmf.2, hme⟩
      · intro m hm hname
        have : m.confidence ∈ (memories.filter (fun m => m.fieldName == name)).map
            (fun m => m.confidence) :=
          List.mem_map_of_mem _ (List.mem_filter.mpr ⟨hm, beq_iff_eq.mpr hname⟩)
        rw [hf] at this
        rcases List.mem_cons.mp this with h | h
        · rw [h, ← hmc']
          exact hlec
        · rw [← hmc']
          exact hall _ h

/-- C3 witness: the equality instantiated at a concrete two-field invoice
(one field with an applied memory, one without); the mean is
`(0.8 * 0.9 + min(0.95, 0.69)) / 2 = 0.705`. -/
theorem C3_overall_confidence_witness :
    let inv : Invoice := ⟨"I", "v", "v", "N", 0,
      [⟨"a", some "x", 9/10, none⟩, ⟨"b", some "y", 95/100, none⟩], none, none⟩
    let mems : List AppliedMemory :=
      [⟨"m1", .vendor, "a", .suggested, 8/10, none⟩]
    calcOverallConfidence inv mems = specOverallConfidence inv mems ∧
    calcOverallConfidence inv mems = 705/1000 := by
  intro inv mems
  refine ⟨(C3_overall_confidence inv mems).1, ?_⟩
  with_unfolding_all decide

/-! ### Claims C8 and C9: pattern detection -/

theorem mem_ite_singleton {α : Type} {c : Prop} [Decidable c] {x p : α}
    (h : p ∈ (if c then [x] else [])) : p = x := by
  split at h
  · exact List.mem_singleton.mp h
  · exact absurd h (List.not_mem_nil p)

/-- C8 counterexample: the raw text "Total 119 incl. tax" contains the
"incl. tax" phrasing the claim names, yet `detectPatterns` emits no
`tax_inclusive` pattern — the source regex only matches "incl. vat",
"mwst. inkl" and "inkl. mwst". -/
theorem C8_counterexample :
    let inv : Invoice := ⟨"I", "v", "v", "N", 0, [],
      some "Total 119 incl. tax", none⟩
    containsSub (toLowerStr "Total 119 incl. tax") "incl. tax" = true ∧
    (detectPatterns inv (fun _ => none)).2.all
      (fun p => p.type != PatternType.tax_inclusive) = true := by
  exact ⟨by decide, by with_unfolding_all decide⟩

/-- C8 (amended): whenever the lowered raw text contains one of the
supported tax-inclusive phrasings ("incl. vat" English, "mwst. inkl" /
"inkl. mwst" German), the Apply stage emits a detected pattern of type
`tax_inclusive`; the tax detection mutates no field of the normalized
record (only currency recovery ever writes, and only to "currency"); and
whenever a `tax_inclusive` pattern is among the detected patterns the
Decide stage sets `requiresHumanReview = true`. -/
theorem C8_tax_inclusive (invoice : Invoice) (norm : String → Option String) :
    ((containsSub (toLowerStr (invoice.rawText.getD "")) "incl. vat" ||
      containsSub (toLowerStr (invoice.rawText.getD "")) "mwst. inkl" ||
      containsSub (toLowerStr (invoice.rawText.getD "")) "inkl. mwst") = true →
      ∃ p ∈ (detectPatterns invoice norm).2, p.type = PatternType.tax_inclusive) ∧
    (∀ f, f ≠ "currency" → (detectPatterns invoice norm).1 f = norm f) ∧
    (∀ (st : RepoState) (appliedResult : AppliedResult)
        (pats : List DetectedPattern),
      (∃ p ∈ pats, p.type = PatternType.tax_inclusive) →
      (makeDecision st appliedResult invoice pats).1.requiresHumanReview = true) := by
  refine ⟨?_, ?_, ?_⟩
  · intro htax
    simp only [detectPatterns]
    refine ⟨⟨.tax_inclusive, none,
      some "Tax inclusive indicator found - verify amounts"⟩, ?_, rfl⟩
    apply List.mem_append_right
    rw [if_pos htax]
    exact List.mem_singleton_self _
  · intro f hf
    simp only [detectPatterns]
    cases hcc : currencyHit invoice norm with
    | none => rfl
    | some code =>
      simp only []
      rw [if_neg (by simp [beq_iff_eq]; exact hf)]
  · intro st appliedResult pats ⟨p, hp, htype⟩
    simp only [makeDecision]
    have hb : pats.any (fun p => p.type == PatternType.tax_inclusive) = true :=
      List.any_eq_true.mpr ⟨p, hp, by simp [htype]⟩
    rw [hb, Bool.or_true]

/-- C8 witness: a concrete invoice with "MwSt. inkl." in its raw text is
forced to human review by the Decide stage. -/
theorem C8_tax_inclusive_witness :
    let inv : Invoice := ⟨"I", "v", "v", "N", 0, [],
      some "Preise MwSt. inkl.", none⟩
    let ar : AppliedResult := ⟨fun _ => none, [], []⟩
    let st : RepoState := ⟨[], [], [], [], []⟩
    (makeDecision st ar inv
      (detectPatterns inv (fun _ => none)).2).1.requiresHumanReview = true := by
  intro inv ar st
  exact (C8_tax_inclusive inv (fun _ => none)).2.2 st ar _
    ((C8_tax_inclusive inv (fun _ => none)).1 (by decide))

/-- C9 counterexample: "JPY" is a 3-letter ISO currency code token present
in the raw text of an invoice with no currency set, yet the Apply stage
leaves the currency unset and emits no pattern — only eur/usd/chf/gbp are
supported. -/
theorem C9_counterexample :
    let inv : Invoice := ⟨"I", "v", "v", "N", 0, [],
      some "Betrag: 100 JPY", none⟩
    containsSub (toLowerStr "Betrag: 100 JPY") "jpy" = true ∧
    (detectPatterns inv (fun _ => none)).1 "currency" = none ∧
    (detectPatterns inv (fun _ => none)).2 = [] := by
  refine ⟨by decide, by with_unfolding_all decide, by with_unfolding_all decide⟩

/-- C9 (amended): when the normalized record has no truthy currency, the
Apply stage searches the lowered raw text for a word-bounded occurrence of
one of the supported 3-letter currency codes (eur/usd/chf/gbp,
case-insensitive); if one is found, its upper-cased form is written into
the normalized record's currency field and a `currency_recovery` pattern
(targeting "currency") is emitted; if none is found, the currency field
stays as it was and no `currency_recovery` pattern is emitted. -/
theorem C9_currency_recovery (invoice : Invoice)
    (norm : String → Option String) :
    (∀ code, currencyHit invoice norm = some code →
      (detectPatterns invoice norm).1 "currency" =
        some (⟨code.map Char.toUpper⟩ : String) ∧
      ∃ p ∈ (detectPatterns invoice norm).2,
        p.type = PatternType.currency_recovery ∧ p.fieldName = some "currency") ∧
    (currencyHit invoice norm = none →
      (detectPatterns invoice norm).1 "currency" = norm "currency" ∧
      ∀ p ∈ (detectPatterns invoice norm).2,
        p.type ≠ PatternType.currency_recovery) ∧
    (truthy (norm "currency") = false →
      currencyHit invoice norm =
        findCurrencyCode false (toLowerStr (invoice.rawText.getD "")).data) := by
  refine ⟨?_, ?_, ?_⟩
  · intro code hcc
    constructor
    · simp only [detectPatterns, hcc]
      simp
    · simp only [detectPatterns, hcc]
      refine ⟨⟨.currency_recovery, some "currency",
        some ("Recovered currency " ++ (⟨code.map Char.toUpper⟩ : String))⟩,
        ?_, rfl, rfl⟩
      apply List.mem_append_left
      apply List.mem_append_left
      apply List.mem_append_left
      exact List.mem_singleton_self _
  · intro hcc
    constructor
    · simp only [detectPatterns, hcc]
    · intro p hp
      simp only [detectPatterns, hcc] at hp
      rcases List.mem_append.mp hp with hp1 | hp1
      · rcases List.mem_append.mp hp1 with hp2 | hp2
        · rcases List.mem_append.mp hp2 with hp3 | hp3
          · exact absurd hp3 (List.not_mem_nil p)
          · rw [mem_ite_singleton hp3]
            intro h
            cases h
        · rw [mem_ite_singleton hp2]
          intro h
          cases h
      · rw [mem_ite_singleton hp1]
        intro h
        cases h
  · intro h
    unfold currencyHit
    rw [if_pos (by simp [h])]

/-- C9 witness: the currency "EUR" is recovered from a concrete raw text
into the normalized record. -/
theorem C9_currency_recovery_witness :
    let inv : Invoice := ⟨"I", "v", "v", "N", 0, [],
      some "Rechnungsbetrag: 100 EUR netto", none⟩
    (detectPatterns inv (fun _ => none)).1 "currency" = some "EUR" := by
  intro inv
  have h := (C9_currency_recovery inv (fun _ => none)).1 ['e', 'u', 'r']
    (by with_unfolding_all decide)
  rw [h.1]
  with_unfolding_all rfl

/-! ### Purchase-order matching (POMatchingService, src/services/apply.ts)

`matchReasons` is a list of display strings never branched on; it is
elided.  `unitPrice` of a purchase-order line item is never read by the
matcher and is elided. -/

structure POLineItem where
  sku : String
  qty : Int
deriving DecidableEq, Repr

structure PurchaseOrder where
  poNumber : String
  vendor : String
  dateMs : Int
  lineItems : List POLineItem
deriving DecidableEq, Repr

def trimWs (l : List Char) : List Char :=
  ((l.dropWhile Char.isWhitespace).reverse.dropWhile Char.isWhitespace).reverse

/-- `s.toLowerCase().trim()` — the vendor normalization used by the PO
matcher (note: unlike `normalizeVendorName`, no whitespace collapsing). -/
def poNormalizeVendor (s : String) : String :=
  ⟨trimWs (s.data.map Char.toLower)⟩

/-- `Math.abs(invoiceDate - poDate) / 864e5` (fractional days). -/
def daysBetween (a b : Int) : ℚ := |((a - b : Int) : ℚ)| / 86400000

/-- Does the first order line item bearing this invoice item's code have
exactly its quantity? (`po.lineItems.find(p => p.sku === inv.sku)?.qty ===
inv.qty`). -/
def qtyMatch (po : PurchaseOrder) (i : InvLineItem) : Bool :=
  match po.lineItems.find? (fun p => some p.sku == i.sku) with
  | some p => p.qty == i.qty
  | none => false

/-- The literal reading of the claim's quantity bonus: code and quantity
both match some order line item. -/
def claimQtyMatch (po : PurchaseOrder) (i : InvLineItem) : Bool :=
  po.lineItems.any (fun p => some p.sku == i.sku && p.qty == i.qty)

/-- The score the matcher's inner loop computes for one same-vendor
purchase order. -/
def poScore (invoice : Invoice) (po : PurchaseOrder) : ℚ :=
  let days := daysBetween invoice.invoiceDateMs po.dateMs
  let dateTerm : ℚ := if days ≤ 30 then (2/10) * (1 - days/30) else 0
  let liTerm : ℚ :=
    match invoice.lineItemsVal with
    | some lineItems =>
      if lineItems.length != 0 then
        let invSkus := dedupFirst
          ((lineItems.filterMap (fun i => i.sku)).filter (fun s => s != ""))
        let poSkus := dedupFirst (po.lineItems.map (fun i => i.sku))
        let matched := invSkus.filter (fun s => poSkus.contains s)
        (if matched.length != 0 then
          (3/10) * (matched.length : ℚ) / ((max invSkus.length poSkus.length : Nat) : ℚ)
        else 0) +
        lineItems.foldl (fun acc i => if qtyMatch po i then acc + 1/10 else acc) 0
      else 0
    | none => 0
  3/10 + dateTerm + liTerm

/-- `POMatchingService.findMatchingPO` (matched order and capped
confidence). -/
def findMatchingPO (orders : List PurchaseOrder) (invoice : Invoice) :
    Option PurchaseOrder × ℚ :=
  let vendor := poNormalizeVendor invoice.vendorId
  let r := orders.foldl (fun (acc : Option PurchaseOrder × ℚ) po =>
    if poNormalizeVendor po.vendor != vendor then acc
    else if acc.2 < poScore invoice po then (some po, poScore invoice po)
    else acc) (none, 0)
  (r.1, jsMin r.2 1)

/-- The per-order score as the claim literally states it (distinct matched
codes via finite sets; 0.1 per invoice line item whose code and quantity
both match AN order line item). -/
def claimPoScoreSpec (invoice : Invoice) (po : PurchaseOrder) : ℚ :=
  let lineItems := invoice.lineItemsVal.getD []
  let days := daysBetween invoice.invoiceDateMs po.dateMs
  let invCodes := ((lineItems.filterMap (fun i => i.sku)).filter
    (fun s => s != "")).toFinset
  let poCodes := (po.lineItems.map (fun i => i.sku)).toFinset
  3/10 + (if days ≤ 30 then (2/10) * (1 - days/30) else 0) +
    (3/10) * ((invCodes ∩ poCodes).card : ℚ) /
      ((max invCodes.card poCodes.card : Nat) : ℚ) +
    (1/10) * ((lineItems.filter (fun i => claimQtyMatch po i)).length : ℚ)

/-- The per-order score as amended: the quantity bonus counts invoice line
items whose quantity equals that of the *first* order line item bearing
their code. -/
def amendedPoScoreSpec (invoice : Invoice) (po : PurchaseOrder) : ℚ :=
  let lineItems := invoice.lineItemsVal.getD []
  let days := daysBetween invoice.invoiceDateMs po.dateMs
  let invCodes := ((lineItems.filterMap (fun i => i.sku)).filter
    (fun s => s != "")).toFinset
  let poCodes := (po.lineItems.map (fun i => i.sku)).toFinset
  3/10 + (if days ≤ 30 then (2/10) * (1 - days/30) else 0) +
    (3/10) * ((invCodes ∩ poCodes).card : ℚ) /
      ((max invCodes.card poCodes.card : Nat) : ℚ) +
    (1/10) * ((lineItems.filter (fun i => qtyMatch po i)).length : ℚ)

/-! #### Lemmas for claim C4 -/

theorem dedupFirst_aux_mem :
    ∀ (l acc : List String) (x : String),
      (x ∈ l.foldl (fun acc x => if acc.contains x then acc else acc ++ [x]) acc)
        ↔ x ∈ acc ∨ x ∈ l
  | [], acc, x => by simp
  | a :: t, acc, x => by
    simp only [List.foldl_cons]
    by_cases h : acc.contains a
    · rw [if_pos h, dedupFirst_aux_mem t acc x]
      have ha : a ∈ acc := by simpa using h
      constructor
      · rintro (h1 | h1)
        · exact Or.inl h1
        · exact Or.inr (List.mem_cons_of_mem _ h1)
      · rintro (h1 | h1)
        · exact Or.inl h1
        · rcases List.mem_cons.mp h1 with h2 | h2
          · exact Or.inl (h2 ▸ ha)
          · exact Or.inr h2
    · rw [if_neg h, dedupFirst_aux_mem t _ x]
      simp only [List.mem_append, List.mem_singleton, List.mem_cons]
      tauto

theorem dedupFirst_aux_nodup :
    ∀ (l acc : List String), acc.Nodup →
      (l.foldl (fun acc x => if acc.contains x then acc else acc ++ [x]) acc).Nodup
  | [], _, h => h
  | a :: t, acc, h => by
    simp only [List.foldl_cons]
    by_cases hc : acc.contains a
    · rw [if_pos hc]
      exact dedupFirst_aux_nodup t acc h
    · rw [if_neg hc]
      apply dedupFirst_aux_nodup t
      rw [List.nodup_append]
      refine ⟨h, List.nodup_singleton a, fun x hx hxa => ?_⟩
      rw [List.mem_singleton] at hxa
      subst hxa
      exact hc (by simpa using hx)

theorem mem_dedupFirst (l : List String) (x : String) :
    x ∈ dedupFirst l ↔ x ∈ l := by
  unfold dedupFirst
  rw [dedupFirst_aux_mem]
  simp

theorem dedupFirst_nodup (l : List String) : (dedupFirst l).Nodup :=
  dedupFirst_aux_nodup l [] List.nodup_nil

theorem length_dedupFirst (l : List String) :
    (dedupFirst l).length = l.toFinset.card := by
  have h1 : (dedupFirst l).toFinset = l.toFinset := by
    ext x
    simp [List.mem_toFinset, mem_dedupFirst]
  rw [← h1]
  exact (List.toFinset_card_of_nodup (dedupFirst_nodup l)).symm

theorem matched_length_eq (invL poL : List String) :
    ((dedupFirst invL).filter (fun s => (dedupFirst poL).contains s)).length =
      (invL.toFinset ∩ poL.toFinset).card := by
  have hnd : ((dedupFirst invL).filter
      (fun s => (dedupFirst poL).contains s)).Nodup :=
    (dedupFirst_nodup invL).filter _
  rw [← List.toFinset_card_of_nodup hnd]
  congr 1
  ext x
  simp only [List.mem_toFinset, List.mem_filter, Finset.mem_inter,
    mem_dedupFirst, List.contains, List.elem_eq_mem, decide_eq_true_eq]

theorem qtyFold_eq :
    ∀ (l : List InvLineItem) (po : PurchaseOrder) (acc : ℚ),
      l.foldl (fun acc i => if qtyMatch po i then acc + 1/10 else acc) acc =
        acc + (1/10) * ((l.filter (fun i => qtyMatch po i)).length : ℚ)
  | [], po, acc => by simp
  | i :: t, po, acc => by
    simp only [List.foldl_cons, List.filter_cons]
    by_cases h : qtyMatch po i = true
    · rw [if_pos h, if_pos h, qtyFold_eq t po _]
      simp only [List.length_cons]
      push_cast
      ring
    · rw [if_neg h, if_neg h, qtyFold_eq t po _]

theorem poScore_eq_amended (invoice : Invoice) (po : PurchaseOrder) :
    poScore invoice po = amendedPoScoreSpec invoice po := by
  unfold poScore amendedPoScoreSpec
  cases hli : invoice.lineItemsVal with
  | none => simp
  | some lineItems =>
    simp only [Option.getD_some]
    by_cases hlen : lineItems.length = 0
    · have hnil : lineItems = [] := List.length_eq_zero.mp hlen
      subst hnil
      simp
    · have hg : (lineItems.length != 0) = true := by simpa [bne_iff_ne] using hlen
      rw [hg, if_pos rfl]
      rw [qtyFold_eq lineItems po 0, zero_add]
      rw [matched_length_eq, length_dedupFirst, length_dedupFirst]
      by_cases hm : ((((lineItems.filterMap (fun i => i.sku)).filter
          (fun s => s != "")).toFinset ∩
          (po.lineItems.map (fun i => i.sku)).toFinset).card) = 0
      · rw [hm]
        simp
      · have hcond : ((((lineItems.filterMap (fun i => i.sku)).filter
            (fun s => s != "")).toFinset ∩
            (po.lineItems.map (fun i => i.sku)).toFinset).card != 0) = true := by
          simpa [bne_iff_ne] using hm
        rw [hcond, if_pos rfl]
        ring

theorem qtyFold_nonneg (l : List InvLineItem) (po : PurchaseOrder) :
    0 ≤ l.foldl (fun acc i => if qtyMatch po i then acc + 1/10 else acc) (0 : ℚ) := by
  rw [qtyFold_eq]
  positivity

theorem poScore_ge (invoice : Invoice) (po : PurchaseOrder) :
    3/10 ≤ poScore invoice po := by
  unfold poScore
  have hdays : (0 : ℚ) ≤ daysBetween invoice.invoiceDateMs po.dateMs := by
    unfold daysBetween
    positivity
  have hdate : (0 : ℚ) ≤
      (if daysBetween invoice.invoiceDateMs po.dateMs ≤ 30 then
        (2/10) * (1 - daysBetween invoice.invoiceDateMs po.dateMs / 30) else 0) := by
    split
    · have h30 : daysBetween invoice.invoiceDateMs po.dateMs / 30 ≤ 1 := by
        rw [div_le_one (by norm_num : (0:ℚ) < 30)]
        assumption
      nlinarith
    · exact le_refl 0
  have hli : (0 : ℚ) ≤ (match invoice.lineItemsVal with
    | some lineItems =>
      if lineItems.length != 0 then
        (if (((dedupFirst ((lineItems.filterMap (fun i => i.sku)).filter
            (fun s => s != ""))).filter
            (fun s => (dedupFirst (po.lineItems.map (fun i => i.sku))).contains s)).length
            != 0) = true then
          (3/10) * (((dedupFirst ((lineItems.filterMap (fun i => i.sku)).filter
            (fun s => s != ""))).filter
            (fun s => (dedupFirst (po.lineItems.map (fun i => i.sku))).contains s)).length : ℚ) /
            (((max (dedupFirst ((lineItems.filterMap (fun i => i.sku)).filter
              (fun s => s != ""))).length
              (dedupFirst (po.lineItems.map (fun i => i.sku))).length : Nat)) : ℚ)
        else 0) +
        lineItems.foldl (fun acc i => if qtyMatch po i then acc + 1/10 else acc) 0
      else 0
    | none => 0) := by
    cases invoice.lineItemsVal with
    | none => exact le_refl 0
    | some lineItems =>
      simp only []
      split
      · have h1 : (0:ℚ) ≤ _ := qtyFold_nonneg lineItems po
        have h2 : (0:ℚ) ≤ (if (((dedupFirst ((lineItems.filterMap (fun i => i.sku)).filter
            (fun s => s != ""))).filter
            (fun s => (dedupFirst (po.lineItems.map (fun i => i.sku))).contains s)).length
            != 0) = true then
          (3/10) * (((dedupFirst ((lineItems.filterMap (fun i => i.sku)).filter
            (fun s => s != ""))).filter
            (fun s => (dedupFirst (po.lineItems.map (fun i => i.sku))).contains s)).length : ℚ) /
            (((max (dedupFirst ((lineItems.filterMap (fun i => i.sku)).filter
              (fun s => s != ""))).length
              (dedupFirst (po.lineItems.map (fun i => i.sku))).length : Nat)) : ℚ)
        else 0) := by
          split
          · positivity
          · exact le_refl 0
        linarith
      · exact le_refl 0
  linarith

theorem foldl_skip_filter {α β : Type} (p : α → Bool) (f : β → α → β) :
    ∀ (l : List α) (b : β),
      l.foldl (fun acc x => if p x then f acc x else acc) b =
        (l.filter p).foldl f b
  | [], _ => rfl
  | a :: t, b => by
    simp only [List.foldl_cons, List.filter_cons]
    by_cases h : p a = true
    · rw [if_pos h, if_pos h]
      simp only [List.foldl_cons]
      exact foldl_skip_filter p f t _
    · rw [if_neg h, if_neg h]
      exact foldl_skip_filter p f t b

/-- The argmax fold of `findMatchingPO` over the vendor-matching orders. -/
def foldBest (score : PurchaseOrder → ℚ) (p : Option PurchaseOrder × ℚ)
    (l : List PurchaseOrder) : Option PurchaseOrder × ℚ :=
  l.foldl (fun acc po => if acc.2 < score po then (some po, score po) else acc) p

theorem foldBest_spec (score : PurchaseOrder → ℚ) :
    ∀ (l : List PurchaseOrder) (b : Option PurchaseOrder) (s : ℚ),
      (s ≤ (foldBest score (b, s) l).2 ∧
        ∀ po ∈ l, score po ≤ (foldBest score (b, s) l).2) ∧
      (foldBest score (b, s) l = (b, s) ∨
        ∃ pre x post, l = pre ++ x :: post ∧
          (foldBest score (b, s) l).1 = some x ∧
          (foldBest score (b, s) l).2 = score x ∧ s < score x ∧
          ∀ y ∈ pre, score y < score x)
  | [], b, s => ⟨⟨le_refl s, by simp⟩, Or.inl rfl⟩
  | po :: t, b, s => by
    have hstep : foldBest score (b, s) (po :: t) =
        foldBest score (if s < score po then (some po, score po) else (b, s)) t := rfl
    by_cases hlt : s < score po
    · rw [hstep, if_pos hlt]
      obtain ⟨⟨h1, h2⟩, alt⟩ := foldBest_spec score t (some po) (score po)
      refine ⟨⟨le_trans (le_of_lt hlt) h1, ?_⟩, ?_⟩
      · intro y hy
        rcases List.mem_cons.mp hy with hy' | hy'
        · rw [hy']
          exact h1
        · exact h2 y hy'
      · rcases alt with heq | ⟨pre, x, post, hsplit, hfst, hsnd, hgt, hpre⟩
        · right
          exact ⟨[], po, t, rfl, by rw [heq], by rw [heq], hlt, by simp⟩
        · right
          refine ⟨po :: pre, x, post, by simp [hsplit], hfst, hsnd,
            lt_trans hlt hgt, ?_⟩
          intro y hy
          rcases List.mem_cons.mp hy with hy' | hy'
          · rw [hy']
            exact hgt
          · exact hpre y hy'
    · rw [hstep, if_neg hlt]
      obtain ⟨⟨h1, h2⟩, alt⟩ := foldBest_spec score t b s
      refine ⟨⟨h1, ?_⟩, ?_⟩
      · intro y hy
        rcases List.mem_cons.mp hy with hy' | hy'
        · rw [hy']
          exact le_trans (not_lt.mp hlt) h1
        · exact h2 y hy'
      · rcases alt with heq | ⟨pre, x, post, hsplit, hfst, hsnd, hgt, hpre⟩
        · exact Or.inl heq
        · right
          refine ⟨po :: pre, x, post, by simp [hsplit], hfst, hsnd, hgt, ?_⟩
          intro y hy
          rcases List.mem_cons.mp hy with hy' | hy'
          · rw [hy']
            exact lt_of_le_of_lt (not_lt.mp hlt) hgt
          · exact hpre y hy'

theorem findMatchingPO_eq_foldBest (orders : List PurchaseOrder)
    (invoice : Invoice) :
    findMatchingPO orders invoice =
      ((foldBest (poScore invoice) (none, 0)
        (orders.filter (fun po => poNormalizeVendor po.vendor ==
          poNormalizeVendor invoice.vendorId))).1,
       jsMin (foldBest (poScore invoice) (none, 0)
        (orders.filter (fun po => poNormalizeVendor po.vendor ==
          poNormalizeVendor invoice.vendorId))).2 1) := by
  simp only [findMatchingPO, foldBest]
  have hstep : (fun (acc : Option PurchaseOrder × ℚ) po =>
      if poNormalizeVendor po.vendor != poNormalizeVendor invoice.vendorId
      then acc
      else if acc.2 < poScore invoice po then (some po, poScore invoice po)
      else acc) =
    (fun (acc : Option PurchaseOrder × ℚ) po =>
      if (poNormalizeVendor po.vendor == poNormalizeVendor invoice.vendorId)
      then (if acc.2 < poScore invoice po then (some po, poScore invoice po)
        else acc)
      else acc) := by
    funext acc po
    cases hb : (poNormalizeVendor po.vendor == poNormalizeVendor invoice.vendorId) with
    | true => simp [bne, hb]
    | false => simp [bne, hb]
  rw [hstep, foldl_skip_filter]

/-- C4 counterexample: for an order with two line items sharing the code
"A" (quantities 5 and 3) and an invoice line item (A, 3), the claim's
"+0.1 per invoice line item whose code and quantity both match an order
line item" predicts confidence 0.9, but the source compares only the
*first* order line item with that code and returns 0.8. -/
theorem C4_counterexample :
    let po : PurchaseOrder := ⟨"PO-1", "acme", 0, [⟨"A", 5⟩, ⟨"A", 3⟩]⟩
    let inv : Invoice := ⟨"I", "acme", "acme", "N", 0, [], none,
      some [⟨some "A", 3⟩]⟩
    (findMatchingPO [po] inv).2 = 8/10 ∧
    jsMin (claimPoScoreSpec inv po) 1 = 9/10 := by
  constructor <;> with_unfolding_all decide

/-- C4 (amended): every purchase-order candidate with the same normalized
vendor as the invoice is scored as base 0.3, plus
`0.2 * (1 - days/30)` when the absolute date difference is at most 30 days
(0 beyond), plus `0.3 * |matched distinct codes| / max(|invoice code set|,
|order code set|)`, plus 0.1 per invoice line item whose code matches an
order line item and whose quantity equals that of the *first* order line
item bearing that code; the returned match is a highest-scoring candidate
that strictly beats every earlier candidate (ties keep the first order
reaching the maximum), and the returned confidence is its score capped at
1.0.  With no same-vendor candidate the result is `(none, 0)`. -/
theorem C4_po_matching (orders : List PurchaseOrder) (invoice : Invoice) :
    (∀ po, poScore invoice po = amendedPoScoreSpec invoice po) ∧
    (orders.filter (fun po => poNormalizeVendor po.vendor ==
        poNormalizeVendor invoice.vendorId) = [] →
      findMatchingPO orders invoice = (none, jsMin 0 1)) ∧
    (orders.filter (fun po => poNormalizeVendor po.vendor ==
        poNormalizeVendor invoice.vendorId) ≠ [] →
      ∃ pre x post,
        orders.filter (fun po => poNormalizeVendor po.vendor ==
          poNormalizeVendor invoice.vendorId) = pre ++ x :: post ∧
        findMatchingPO orders invoice = (some x, jsMin (poScore invoice x) 1) ∧
        (∀ y ∈ orders.filter (fun po => poNormalizeVendor po.vendor ==
          poNormalizeVendor invoice.vendorId),
          poScore invoice y ≤ poScore invoice x) ∧
        (∀ y ∈ pre, poScore invoice y < poScore invoice x)) := by
  refine ⟨fun po => poScore_eq_amended invoice po, ?_, ?_⟩
  · intro hnil
    rw [findMatchingPO_eq_foldBest, hnil]
    rfl
  · intro hne
    rw [findMatchingPO_eq_foldBest]
    obtain ⟨⟨hs0, hall⟩, alt⟩ := foldBest_spec (poScore invoice)
      (orders.filter (fun po => poNormalizeVendor po.vendor ==
        poNormalizeVendor invoice.vendorId)) none 0
    rcases alt with heq | ⟨pre, x, post, hsplit, hfst, hsnd, _, hpre⟩
    · exfalso
      rcases List.exists_mem_of_ne_nil _ hne with ⟨y, hy⟩
      have h1 := hall y hy
      rw [heq] at h1
      have h2 := poScore_ge invoice y
      simp only [] at h1
      linarith
    · refine ⟨pre, x, post, hsplit, ?_, ?_, hpre⟩
      · rw [hfst, hsnd]
      · intro y hy
        rw [← hsnd]
        exact hall y hy

/-- C4 witness: the amended theorem instantiated at one concrete matching
order; the decomposition and capped confidence are produced. -/
theorem C4_po_matching_witness :
    let po : PurchaseOrder := ⟨"PO-1", "acme", 0, [⟨"A", 5⟩, ⟨"A", 3⟩]⟩
    let inv : Invoice := ⟨"I", "acme", "acme", "N", 0, [], none,
      some [⟨some "A", 3⟩]⟩
    ∃ pre x post,
      [po].filter (fun p => poNormalizeVendor p.vendor ==
        poNormalizeVendor inv.vendorId) = pre ++ x :: post ∧
      findMatchingPO [po] inv = (some x, jsMin (poScore inv x) 1) ∧
      (∀ y ∈ [po].filter (fun p => poNormalizeVendor p.vendor ==
        poNormalizeVendor inv.vendorId), poScore inv y ≤ poScore inv x) ∧
      (∀ y ∈ pre, poScore inv y < poScore inv x) := by
  intro po inv
  exact (C4_po_matching [po] inv).2.2 (by with_unfolding_all decide)

/-! ### Processor orchestration (src/services/processor.ts)

`processInvoice` threads the repository and the learning service's
contributing-memory registration through Recall → Apply → (conditional PO
matching) → Decide, saving one audit row per stage and finally recording
the invoice for duplicate detection.  Numeric display formatting inside
the produced strings is elided, as are the PO matcher's `matchReasons`
(display-only, as in the PO-matching embedding above). -/

def patternTypeStr : PatternType → String
  | .tax_inclusive => "tax_inclusive"
  | .skonto => "skonto"
  | .currency_recovery => "currency_recovery"
  | .sku_mapping => "sku_mapping"
  | .po_match => "po_match"

/-- `buildProposedCorrectionsStrings`. -/
def buildProposedCorrectionsStrings (corrections : List ProposedCorrection)
    (patterns : List DetectedPattern) : List String :=
  corrections.map (fun c =>
    c.fieldName ++ ": " ++ (match c.currentValue with
      | some v => v
      | none => "null") ++ " to " ++ c.suggestedValue ++ " (memory: " ++
      c.memoryId ++ ") - " ++ c.reasoning) ++
  (patterns.filter (fun p => truthy p.suggestedAction)).map (fun p =>
    "[" ++ patternTypeStr p.type ++ "]" ++
      (match p.fieldName with
        | some f => " [" ++ f ++ "]"
        | none => "") ++ ": " ++ p.suggestedAction.getD "")

/-- `extractContributingMemories`: vendor and correction traces only. -/
def extractContributingMemories (appliedMemories : List AppliedMemory) :
    List ContributingMemory :=
  (appliedMemories.filter (fun m =>
      m.memoryType == AppliedMemoryType.vendor ||
        m.memoryType == AppliedMemoryType.correction)).map (fun m =>
    ⟨m.memoryId,
      (match m.memoryType with
        | AppliedMemoryType.vendor => MemoryType.vendor
        | _ => MemoryType.correction),
      m.fieldName, m.extractedValue⟩)

structure ProcessingResult where
  normalizedInvoice : String → Option String
  proposedCorrections : List String
  requiresHumanReview : Bool
  reasoning : String
  confidenceScore : ℚ
  memoryUpdates : List String
  auditTrail : List AuditEntry

/-- `InvoiceProcessor.processInvoice`: returns the processing result and
the updated system state (repository plus contributing-memory map). -/
def processInvoice (extract : ExtractFn) (orders : List PurchaseOrder)
    (ls : LearnState) (invoice : Invoice) : ProcessingResult × LearnState :=
  let recallRes := recallMemories ls.repo invoice
  let st1 := saveAuditEntry ls.repo
    ⟨invoice.id, (recallRes.2).step, (recallRes.2).details⟩
  let applyRes := applyMemories extract invoice recallRes.1
  let st2 := saveAuditEntry st1
    ⟨invoice.id, (applyRes.2.2).step, (applyRes.2.2).details⟩
  let poStep : List DetectedPattern × List ProposedCorrection :=
    if !truthy ((applyRes.1).normalizedInvoice "poNumber") then
      let poMatch := findMatchingPO orders invoice
      match poMatch.1 with
      | some po =>
        if (5/10 : ℚ) ≤ poMatch.2 then
          ([⟨PatternType.po_match, some "poNumber",
              some ("PO match suggested: " ++ po.poNumber)⟩],
            if (7/10 : ℚ) ≤ poMatch.2 then
              [⟨"poNumber", none, po.poNumber, "po-matching-service",
                poMatch.2, "PO matching"⟩]
            else [])
        else ([], [])
      | none => ([], [])
    else ([], [])
  let detectedPatterns := applyRes.2.1 ++ poStep.1
  let appliedResult : AppliedResult :=
    { applyRes.1 with proposedCorrections :=
        (applyRes.1).proposedCorrections ++ poStep.2 }
  let ls1 := registerContributingMemories { ls with repo := st2 } invoice.id
    (extractContributingMemories appliedResult.appliedMemories)
  let decisionRes := makeDecision ls1.repo appliedResult invoice detectedPatterns
  let st3 := saveAuditEntry ls1.repo
    ⟨invoice.id, (decisionRes.2).step, (decisionRes.2).details⟩
  let st4 := saveProcessedInvoice st3 invoice.id
    (normalizeVendorName invoice.vendorId) invoice.invoiceNumber
    invoice.invoiceDateMs
  ({ normalizedInvoice := appliedResult.normalizedInvoice
     proposedCorrections := buildProposedCorrectionsStrings
       appliedResult.proposedCorrections detectedPatterns
     requiresHumanReview := (decisionRes.1).requiresHumanReview
     reasoning := (decisionRes.1).reasoning
     confidenceScore := jsMax 0 (jsMin 1 (decisionRes.1).overallConfidence)
     memoryUpdates := ["Recorded invoice " ++ invoice.id ++
       " for duplicate detection"]
     auditTrail := [recallRes.2, applyRes.2.2, decisionRes.2] },
   { ls1 with repo := st4 })

/-! #### Lemmas for claim C7 -/

theorem strData_append (a b : String) : (a ++ b).data = a.data ++ b.data := rfl

/-- Every member of a list occurs inside the space-joined string. -/
theorem joinSpace_contains_mem :
    ∀ (l : List String) (x : String), x ∈ l → x.data <:+: (joinSpace l).data
  | [], x, hx => absurd hx (List.not_mem_nil x)
  | [s], x, hx => by
    rw [List.mem_singleton.mp hx]
    exact ⟨[], [], by simp [joinSpace]⟩
  | s :: t :: rest, x, hx => by
    have hj : joinSpace (s :: t :: rest) = s ++ " " ++ joinSpace (t :: rest) := rfl
    rcases List.mem_cons.mp hx with h1 | h2
    · subst h1
      rw [hj, strData_append, strData_append]
      exact ⟨[], (" " : String).data ++ (joinSpace (t :: rest)).data, by
        simp [List.append_assoc]⟩
    · have ih := joinSpace_contains_mem (t :: rest) x h2
      rw [hj, strData_append, strData_append]
      obtain ⟨u, v, huv⟩ := ih
      exact ⟨(s.data ++ (" " : String).data) ++ u, v, by
        rw [← huv]
        simp [List.append_assoc]⟩

/-- The review flag of the low-confidence-memory sweep of `makeDecision`
stays `true` once review is already required. -/
theorem decideSweep_true :
    ∀ (mems : List AppliedMemory) (p : List String × Bool), p.2 = true →
      (mems.foldl (fun (p : List String × Bool) mem =>
        if decide (autoApplyThreshold ≤ mem.confidence) then p
        else if decide (mem.confidence < suggestionThreshold) &&
            !(p.1.contains mem.fieldName) then (p.1 ++ [mem.fieldName], true)
        else p) p).2 = true
  | [], _, hp => hp
  | m :: rest, p, hp => by
    rw [List.foldl_cons]
    apply decideSweep_true rest
    split
    · exact hp
    · split
      · rfl
      · exact hp

theorem decideSweep_snd (mems : List AppliedMemory) (fl : List String) :
    (mems.foldl (fun (p : List String × Bool) mem =>
      if decide (autoApplyThreshold ≤ mem.confidence) then p
      else if decide (mem.confidence < suggestionThreshold) &&
          !(p.1.contains mem.fieldName) then (p.1 ++ [mem.fieldName], true)
      else p) (fl, true)).2 = true :=
  decideSweep_true mems (fl, true) rfl

/-- Day-granularity consequence of a ±7-day bound on epoch
milliseconds. -/
theorem dayIndex_bounds (a b : Int) (h : |a - b| ≤ 7 * 86400000) :
    dayIndex a - 7 ≤ dayIndex b ∧ dayIndex b ≤ dayIndex a + 7 := by
  rcases abs_sub_le_iff.mp h with ⟨h1, h2⟩
  unfold dayIndex
  rw [Int.fdiv_eq_ediv _ (by norm_num), Int.fdiv_eq_ediv _ (by norm_num)]
  constructor
  · have hb : a + (-7) * 86400000 ≤ b := by linarith
    have hd := Int.ediv_le_ediv (by norm_num : (0:Int) < 86400000) hb
    rw [Int.add_mul_ediv_right _ _ (by norm_num : (86400000:Int) ≠ 0)] at hd
    omega
  · have hb : b ≤ a + 7 * 86400000 := by linarith
    have hd := Int.ediv_le_ediv (by norm_num : (0:Int) < 86400000) hb
    rw [Int.add_mul_ediv_right _ _ (by norm_num : (86400000:Int) ≠ 0)] at hd
    omega

/-- Duplicate checking reads only the processed-invoice table. -/
theorem checkForDuplicates_eq_of_processed (st st' : RepoState)
    (hp : st.processedInvoices = st'.processedInvoices) (inv : Invoice) :
    checkForDuplicates st inv = checkForDuplicates st' inv := by
  simp only [checkForDuplicates, findPotentialDuplicates, hp]

/-- `processInvoice` records exactly one processed-invoice row (replacing
any row with the same id). -/
theorem processInvoice_processed (extract : ExtractFn)
    (orders : List PurchaseOrder) (ls : LearnState) (inv : Invoice) :
    (processInvoice extract orders ls inv).2.repo.processedInvoices =
      ls.repo.processedInvoices.filter (fun r => r.id != inv.id) ++
        [⟨inv.id, normalizeVendorName inv.vendorId, inv.invoiceNumber,
          inv.invoiceDateMs⟩] := rfl

/-- Any duplicate warning forces human review and puts "duplicate" into
the reasoning string. -/
theorem makeDecision_duplicate (st : RepoState) (ar : AppliedResult)
    (inv : Invoice) (pats : List DetectedPattern) (w : DuplicateWarning)
    (h : checkForDuplicates st inv = some w) :
    (makeDecision st ar inv pats).1.requiresHumanReview = true ∧
    containsSub (makeDecision st ar inv pats).1.reasoning "duplicate" = true := by
  constructor
  · simp only [makeDecision, h, Option.isSome_some, Bool.true_or]
    rw [decideSweep_snd]
    simp
  · simp only [makeDecision, h, containsSub]
    refine decide_eq_true (List.IsInfix.trans ?_ (joinSpace_contains_mem _
      ("Potential duplicate: " ++ joinComma w.potentialDuplicateIds) ?_))
    · rw [strData_append]
      refine ⟨("Potential " : String).data,
        (": " : String).data ++ (joinComma w.potentialDuplicateIds).data, ?_⟩
      have h1 : ((("Potential " : String).data ++ ("duplicate" : String).data) ++
          (": " : String).data) = ("Potential duplicate: " : String).data := by
        decide
      rw [← h1]
      simp [List.append_assoc]
    · split
      · simp
      · split
        · simp
        · simp

/-- C7: processing a second invoice with the same normalized vendor key,
the same invoice number and a date within 7 days of an already-processed
invoice forces `requiresHumanReview = true` with "duplicate" contained in
the reasoning string; and `processInvoice` performs no memory-mutating
repository operation on any run — the vendor-, correction- and
resolution-memory tables (hence every stored memory's confidence,
application count and all other fields) are left exactly as they were. -/
theorem C7_duplicate_forces_review (extract : ExtractFn)
    (orders : List PurchaseOrder) (ls : LearnState) (inv1 inv2 : Invoice)
    (hvendor : normalizeVendorName inv2.vendorId =
      normalizeVendorName inv1.vendorId)
    (hnum : inv2.invoiceNumber = inv1.invoiceNumber)
    (hdays : |inv2.invoiceDateMs - inv1.invoiceDateMs| ≤ 7 * 86400000)
    (hid : inv1.id ≠ inv2.id) :
    (∀ (ls' : LearnState) (inv : Invoice),
      (processInvoice extract orders ls' inv).2.repo.vendorTable =
          ls'.repo.vendorTable ∧
        (processInvoice extract orders ls' inv).2.repo.correctionTable =
          ls'.repo.correctionTable ∧
        (processInvoice extract orders ls' inv).2.repo.resolutionTable =
          ls'.repo.resolutionTable) ∧
    (processInvoice extract orders (processInvoice extract orders ls inv1).2
        inv2).1.requiresHumanReview = true ∧
    containsSub (processInvoice extract orders
        (processInvoice extract orders ls inv1).2 inv2).1.reasoning
      "duplicate" = true := by
  refine ⟨fun ls' inv => ⟨rfl, rfl, rfl⟩, ?_⟩
  have hdi := dayIndex_bounds inv2.invoiceDateMs inv1.invoiceDateMs hdays
  set ls1 := (processInvoice extract orders ls inv1).2 with hls1
  have hproc : ls1.repo.processedInvoices =
      ls.repo.processedInvoices.filter (fun r => r.id != inv1.id) ++
        [⟨inv1.id, normalizeVendorName inv1.vendorId, inv1.invoiceNumber,
          inv1.invoiceDateMs⟩] :=
    processInvoice_processed extract orders ls inv1
  have hids : inv1.id ∈ (findPotentialDuplicates ls1.repo
      (normalizeVendorName inv2.vendorId) inv2.invoiceNumber
      inv2.invoiceDateMs).filter (fun id => id != inv2.id) := by
    rw [List.mem_filter]
    refine ⟨?_, ?_⟩
    · simp only [findPotentialDuplicates]
      rw [List.mem_map]
      refine ⟨⟨inv1.id, normalizeVendorName inv1.vendorId, inv1.invoiceNumber,
        inv1.invoiceDateMs⟩, ?_, rfl⟩
      rw [List.mem_filter]
      refine ⟨?_, ?_⟩
      · rw [hproc]
        exact List.mem_append_right _ (List.mem_singleton_self _)
      · simp [hvendor, hnum, hdi.1, hdi.2]
    · rw [bne_iff_ne]
      exact hid
  have hne : ((findPotentialDuplicates ls1.repo
      (normalizeVendorName inv2.vendorId) inv2.invoiceNumber
      inv2.invoiceDateMs).filter (fun id => id != inv2.id)).isEmpty = false := by
    cases hcase : (findPotentialDuplicates ls1.repo
        (normalizeVendorName inv2.vendorId) inv2.invoiceNumber
        inv2.invoiceDateMs).filter (fun id => id != inv2.id) with
    | nil =>
      rw [hcase] at hids
      exact absurd hids (List.not_mem_nil _)
    | cons a t => rfl
  have hchk : checkForDuplicates ls1.repo inv2 =
      some ⟨(findPotentialDuplicates ls1.repo
        (normalizeVendorName inv2.vendorId) inv2.invoiceNumber
        inv2.invoiceDateMs).filter (fun id => id != inv2.id)⟩ := by
    simp only [checkForDuplicates]
    rw [hne]
    simp
  simp only [processInvoice]
  refine makeDecision_duplicate _ _ _ _
    ⟨(findPotentialDuplicates ls1.repo (normalizeVendorName inv2.vendorId)
      inv2.invoiceNumber inv2.invoiceDateMs).filter
      (fun id => id != inv2.id)⟩ ?_
  exact (checkForDuplicates_eq_of_processed _ ls1.repo rfl inv2).trans hchk

/-- C7 witness: a concrete duplicate pair (same vendor, number and date)
is flagged for review with "duplicate" in the reasoning. -/
theorem C7_duplicate_forces_review_witness :
    (processInvoice (fun _ _ _ => none) []
        (processInvoice (fun _ _ _ => none) []
          ⟨⟨[], [], [], [], []⟩, fun _ => none, 0⟩
          ⟨"I1", "v", "v", "N", 0, [], none, none⟩).2
        ⟨"I2", "v", "v", "N", 0, [], none, none⟩).1.requiresHumanReview = true ∧
    containsSub (processInvoice (fun _ _ _ => none) []
        (processInvoice (fun _ _ _ => none) []
          ⟨⟨[], [], [], [], []⟩, fun _ => none, 0⟩
          ⟨"I1", "v", "v", "N", 0, [], none, none⟩).2
        ⟨"I2", "v", "v", "N", 0, [], none, none⟩).1.reasoning "duplicate" =
      true :=
  (C7_duplicate_forces_review (fun _ _ _ => none) []
    ⟨⟨[], [], [], [], []⟩, fun _ => none, 0⟩
    ⟨"I1", "v", "v", "N", 0, [], none, none⟩
    ⟨"I2", "v", "v", "N", 0, [], none, none⟩
    rfl rfl (by decide) (by decide)).2

end Flowbit
